import Mathlib

/-!
Verification of the local content cache and concurrent fetch pipeline of
`api_service/main.py` (JMComic API service).

The development shallowly embeds the core pipeline:

* the filesystem-backed artifact store (`FS`, an association list from
  root-relative paths to file contents),
* the path resolver (`coverPath`, `thumbPath`, `photoDir`, `pageName`),
* the format normalizer `convert_to_format`,
* the single-artifact cache gates `ensure_album_cover` / `ensure_thumbnail`
  and the thumbnail delete endpoint `delete_album_thumbnail`,
* the artifact-set orchestrator `ensure_photo_images` with its inner
  worker `download_one`.

Modelling conventions, mirroring the Python source:

* A path is the list of its components below the download root
  (e.g. `["photos", "123", "cover.jpg"]`).  Ids supplied by callers are
  path components; faithfulness of this view requires ids which are
  non-empty and contain no `/`, which is what the HTTP layer guarantees
  for path parameters and what claim hypotheses state explicitly.
* File bytes are abstracted to the aspects the pipeline inspects:
  whether `PIL.Image.open` succeeds on them (`openable`), whether a full
  decode succeeds (`decodable`), and an identifier so that re-encoding is
  observable.  Per the design scope, transcoding itself is the pure
  function `encodeRGB` (the `img.convert("RGB").save(..)` pipeline), and
  the external download collaborator either delivers bytes or raises
  without writing.
* Directory creation (`mkdir(parents=True, exist_ok=True)`) is an
  idempotent no-op in a file-map model and is elided.
* `concurrent.futures` semantics: `executor.map` submits every job, the
  `with` block waits for all of them, and `list(executor.map(..))`
  re-raises the first job exception.  Since distinct jobs of one wave
  touch only their own target/temp files, the wave is modelled as a left
  fold of the per-index job over the dispatched index list, with a
  `failed` flag recording whether some job raised.
-/

namespace JmApi

/-! ## File contents -/

/-- Abstraction of the byte strings the pipeline moves around.
`raw` : bytes `PIL` can open and fully decode (a valid source image);
`truncated` : bytes `PIL.Image.open` accepts (readable header) but whose
full decode (`img.convert("RGB")`) raises;
`bad` : bytes `PIL.Image.open` rejects outright;
`jpegEncoded` : the canonical output of `img.convert("RGB").save(target,
format="JPEG", quality=90)` applied to the identified source. -/
inductive Bytes where
  | raw (id : Nat)
  | truncated (id : Nat)
  | bad (id : Nat)
  | jpegEncoded (id : Nat)
deriving DecidableEq

/-- Whether `PIL.Image.open` succeeds on these bytes. -/
def Bytes.openable : Bytes → Bool
  | .raw _ => true
  | .truncated _ => true
  | .bad _ => false
  | .jpegEncoded _ => true

/-- Whether the full decode (`img.convert("RGB")`) succeeds. -/
def Bytes.decodable : Bytes → Bool
  | .raw _ => true
  | .truncated _ => false
  | .bad _ => false
  | .jpegEncoded _ => true

/-- The pure transcode `img.convert("RGB").save(.., format="JPEG",
quality=90)` viewed as a function on byte contents (design scope:
`transcode(bytes, sourceFormat) -> bytes(JPEG)`).  Only applied to
decodable bytes. -/
def encodeRGB : Bytes → Bytes
  | .raw i => .jpegEncoded i
  | .jpegEncoded i => .jpegEncoded i
  | b => b

/-! ## The artifact store -/

/-- A root-relative filesystem path, as its list of components. -/
abbrev FsPath := List String

/-- The artifact store: an association list from paths to file bytes.
Well-formed states have no duplicate keys (`FSNodup`). -/
abbrev FS := List (FsPath × Bytes)

def fsGet (fs : FS) (p : FsPath) : Option Bytes :=
  match fs with
  | [] => none
  | (q, b) :: rest => if q = p then some b else fsGet rest p

/-- `delete` / `Path.unlink(missing_ok=True)`: drop the file if present. -/
def fsDel (fs : FS) (p : FsPath) : FS :=
  fs.filter (fun e => e.1 ≠ p)

/-- Commit bytes at a path, replacing any previous file there. -/
def fsSet (fs : FS) (p : FsPath) (b : Bytes) : FS :=
  (p, b) :: fsDel fs p

/-- `Path.exists()`. -/
def fsExists (fs : FS) (p : FsPath) : Bool :=
  (fsGet fs p).isSome

/-- Store well-formedness: each path appears at most once. -/
def FSNodup (fs : FS) : Prop := (fs.map Prod.fst).Nodup

theorem fsGet_fsDel (fs : FS) (p q : FsPath) :
    fsGet (fsDel fs p) q = if q = p then none else fsGet fs q := by
  induction fs with
  | nil => simp [fsDel, fsGet]
  | cons e rest ih =>
    obtain ⟨r, b⟩ := e
    by_cases hrp : r = p
    · subst hrp
      have h1 : fsDel ((r, b) :: rest) r = fsDel rest r := by
        simp [fsDel, List.filter_cons]
      rw [h1, ih]
      by_cases hq : q = r
      · simp [hq]
      · have hpq : r ≠ q := fun h => hq h.symm
        simp [hq, fsGet, hpq]
    · have h1 : fsDel ((r, b) :: rest) p = (r, b) :: fsDel rest p := by
        simp [fsDel, List.filter_cons, hrp]
      rw [h1]
      by_cases hq : q = p
      · subst hq
        simp [fsGet, hrp, ih]
      · by_cases hrq : r = q
        · subst hrq; simp [fsGet, hq]
        · simp [fsGet, hrq, ih, hq]

theorem fsGet_fsSet (fs : FS) (p : FsPath) (b : Bytes) (q : FsPath) :
    fsGet (fsSet fs p b) q = if q = p then some b else fsGet fs q := by
  by_cases h : q = p
  · simp [fsSet, fsGet, h]
  · have hpq : p ≠ q := fun hh => h hh.symm
    simp [fsSet, fsGet, h, fsGet_fsDel, hpq]

theorem fsExists_iff_mem_keys (fs : FS) (p : FsPath) :
    fsExists fs p = true ↔ p ∈ fs.map Prod.fst := by
  induction fs with
  | nil => simp [fsExists, fsGet]
  | cons e rest ih =>
    obtain ⟨r, b⟩ := e
    by_cases h : r = p
    · subst h
      constructor
      · intro _
        rw [List.map_cons]
        exact List.mem_cons_self _ _
      · intro _
        simp [fsExists, fsGet]
    · have hpr : p ≠ r := fun hh => h hh.symm
      constructor
      · intro hx
        have hx2 : fsExists rest p = true := by
          simpa [fsExists, fsGet, h] using hx
        rw [List.map_cons]
        exact List.mem_cons_of_mem _ (ih.mp hx2)
      · intro hx
        have hx2 : p ∈ rest.map Prod.fst := by
          rcases List.mem_cons.mp hx with h1 | h1
          · exact absurd h1 hpr
          · exact h1
        simpa [fsExists, fsGet, h] using ih.mpr hx2

theorem fsNodup_fsDel {fs : FS} (h : FSNodup fs) (p : FsPath) :
    FSNodup (fsDel fs p) := by
  unfold FSNodup fsDel
  exact List.Nodup.sublist (List.Sublist.map Prod.fst (List.filter_sublist fs)) h

theorem not_mem_fsDel_keys (fs : FS) (p : FsPath) :
    p ∉ (fsDel fs p).map Prod.fst := by
  intro hmem
  have h1 : fsExists (fsDel fs p) p = true := (fsExists_iff_mem_keys _ _).mpr hmem
  rw [fsExists, fsGet_fsDel] at h1
  simp at h1

theorem fsNodup_fsSet {fs : FS} (h : FSNodup fs) (p : FsPath) (b : Bytes) :
    FSNodup (fsSet fs p b) := by
  unfold FSNodup fsSet
  simp only [List.map_cons, List.nodup_cons]
  exact ⟨not_mem_fsDel_keys fs p, fsNodup_fsDel h p⟩

/-! ## Decimal page numbering

`f"{idx + 1:05}"` : the decimal digits of `idx + 1`, left-padded with `'0'`
to width 5.  `decCharsAux` is fuel-indexed so that it is structurally
recursive and kernel-evaluable; `decVal` is its left inverse. -/

def digitChar (d : Nat) : Char :=
  match d with
  | 0 => '0' | 1 => '1' | 2 => '2' | 3 => '3' | 4 => '4'
  | 5 => '5' | 6 => '6' | 7 => '7' | 8 => '8' | _ => '9'

def decCharsAux : Nat → Nat → List Char
  | 0, _ => []
  | fuel + 1, n =>
    if n < 10 then [digitChar n]
    else decCharsAux fuel (n / 10) ++ [digitChar (n % 10)]

/-- The decimal digit characters of `n`, most significant first. -/
def decChars (n : Nat) : List Char := decCharsAux (n + 1) n

/-- Left-pad a digit string with `'0'` to width `w`. -/
def zeroPad (w : Nat) (cs : List Char) : List Char :=
  List.replicate (w - cs.length) '0' ++ cs

/-- Numeric value of a digit character. -/
def charVal (c : Char) : Nat := c.toNat - 48

def decValAux : Nat → List Char → Nat
  | acc, [] => acc
  | acc, c :: cs => decValAux (acc * 10 + charVal c) cs

/-- Numeric value of a digit string (leading zeros ignored). -/
def decVal (cs : List Char) : Nat := decValAux 0 cs

theorem charVal_digitChar : ∀ d, d < 10 → charVal (digitChar d) = d := by decide

theorem digitChar_lt_digitChar :
    ∀ a, a < 10 → ∀ b, b < 10 → (a < b ↔ digitChar a < digitChar b) := by decide

theorem decValAux_append (acc : Nat) (xs ys : List Char) :
    decValAux acc (xs ++ ys) = decValAux (decValAux acc xs) ys := by
  induction xs generalizing acc with
  | nil => rfl
  | cons c cs ih =>
    rw [List.cons_append]
    show decValAux (acc * 10 + charVal c) (cs ++ ys) = _
    exact ih _

theorem decVal_nil : decVal [] = 0 := rfl

theorem decValAux_eq (acc : Nat) (cs : List Char) :
    decValAux acc cs = acc * 10 ^ cs.length + decVal cs := by
  induction cs generalizing acc with
  | nil =>
    show acc = acc * 10 ^ (0 : Nat) + decVal []
    rw [decVal_nil]
    simp
  | cons c cs ih =>
    show decValAux (acc * 10 + charVal c) cs = _
    rw [ih]
    have h0 : decVal (c :: cs) = decValAux (0 * 10 + charVal c) cs := rfl
    rw [h0, ih]
    simp only [List.length_cons]
    ring

theorem decVal_cons (c : Char) (cs : List Char) :
    decVal (c :: cs) = charVal c * 10 ^ cs.length + decVal cs := by
  have h : decVal (c :: cs) = decValAux (0 * 10 + charVal c) cs := rfl
  rw [h, decValAux_eq]
  ring

theorem decVal_append_singleton (xs : List Char) (c : Char) :
    decVal (xs ++ [c]) = decVal xs * 10 + charVal c := by
  show decValAux 0 (xs ++ [c]) = _
  rw [decValAux_append]
  rfl

theorem decVal_replicate_zero_append (k : Nat) (cs : List Char) :
    decVal (List.replicate k '0' ++ cs) = decVal cs := by
  induction k with
  | zero => simp
  | succ k ih =>
    have : List.replicate (k + 1) '0' ++ cs = '0' :: (List.replicate k '0' ++ cs) := by
      simp [List.replicate]
    rw [this, decVal_cons, ih]
    simp [charVal]

theorem decVal_zeroPad (w : Nat) (cs : List Char) :
    decVal (zeroPad w cs) = decVal cs :=
  decVal_replicate_zero_append _ _

theorem decCharsAux_succ_lt (fuel n : Nat) (h10 : n < 10) :
    decCharsAux (fuel + 1) n = [digitChar n] := by
  show (if n < 10 then [digitChar n]
    else decCharsAux fuel (n / 10) ++ [digitChar (n % 10)]) = _
  rw [if_pos h10]

theorem decCharsAux_succ_ge (fuel n : Nat) (h10 : ¬ n < 10) :
    decCharsAux (fuel + 1) n = decCharsAux fuel (n / 10) ++ [digitChar (n % 10)] := by
  show (if n < 10 then [digitChar n]
    else decCharsAux fuel (n / 10) ++ [digitChar (n % 10)]) = _
  rw [if_neg h10]

theorem decVal_singleton (c : Char) : decVal [c] = charVal c := by
  show 0 * 10 + charVal c = charVal c
  omega

theorem decVal_decCharsAux (fuel n : Nat) (h : n < fuel) :
    decVal (decCharsAux fuel n) = n := by
  induction fuel generalizing n with
  | zero => omega
  | succ fuel ih =>
    by_cases h10 : n < 10
    · rw [decCharsAux_succ_lt _ _ h10, decVal_singleton, charVal_digitChar n h10]
    · have hdiv : n / 10 < fuel := by omega
      rw [decCharsAux_succ_ge _ _ h10, decVal_append_singleton, ih _ hdiv,
        charVal_digitChar _ (Nat.mod_lt _ (by omega))]
      omega

theorem decVal_decChars (n : Nat) : decVal (decChars n) = n :=
  decVal_decCharsAux _ _ (Nat.lt_succ_self n)

theorem decCharsAux_ne_nil (fuel n : Nat) (h : n < fuel) :
    decCharsAux fuel n ≠ [] := by
  cases fuel with
  | zero => omega
  | succ fuel =>
    by_cases h10 : n < 10
    · rw [decCharsAux_succ_lt _ _ h10]
      simp
    · rw [decCharsAux_succ_ge _ _ h10]
      simp

theorem decChars_ne_nil (n : Nat) : decChars n ≠ [] :=
  decCharsAux_ne_nil _ _ (Nat.lt_succ_self n)

theorem decCharsAux_length_le (fuel n k : Nat) (hf : n < fuel) (hk : 0 < k)
    (h : n < 10 ^ k) : (decCharsAux fuel n).length ≤ k := by
  induction fuel generalizing n k with
  | zero => omega
  | succ fuel ih =>
    by_cases h10 : n < 10
    · rw [decCharsAux_succ_lt _ _ h10]
      simpa using hk
    · have hk2 : 2 ≤ k := by
        by_contra hlt
        have hk1 : k = 1 := by omega
        subst hk1
        simp at h
        omega
      have hdiv : n / 10 < 10 ^ (k - 1) := by
        have h1 : n < 10 ^ k := h
        have h2 : 10 ^ k = 10 ^ (k - 1) * 10 := by
          rw [← pow_succ]
          congr 1
          omega
        rw [h2] at h1
        omega
      rw [decCharsAux_succ_ge _ _ h10]
      simp only [List.length_append, List.length_singleton]
      have := ih (n / 10) (k - 1) (by omega) (by omega) hdiv
      omega

theorem decChars_length_le (n k : Nat) (hk : 0 < k) (h : n < 10 ^ k) :
    (decChars n).length ≤ k :=
  decCharsAux_length_le _ _ _ (Nat.lt_succ_self n) hk h

theorem zeroPad_length (w : Nat) (cs : List Char) (h : cs.length ≤ w) :
    (zeroPad w cs).length = w := by
  simp [zeroPad]
  omega

/-- Every character of a padded decimal string is a decimal digit. -/
theorem mem_zeroPad_decChars (n : Nat) (w : Nat) :
    ∀ c ∈ zeroPad w (decChars n), ∃ d, d < 10 ∧ c = digitChar d := by
  have hdec : ∀ fuel m, ∀ c ∈ decCharsAux fuel m, ∃ d, d < 10 ∧ c = digitChar d := by
    intro fuel
    induction fuel with
    | zero => intro m c hc; simp [decCharsAux] at hc
    | succ fuel ih =>
      intro m c hc
      by_cases h10 : m < 10
      · rw [decCharsAux_succ_lt _ _ h10] at hc
        simp at hc
        exact ⟨m, h10, hc⟩
      · rw [decCharsAux_succ_ge _ _ h10] at hc
        rcases List.mem_append.mp hc with hc | hc
        · exact ih _ _ hc
        · rw [List.mem_singleton] at hc
          exact ⟨m % 10, Nat.mod_lt _ (by omega), hc⟩
  intro c hc
  rcases List.mem_append.mp hc with hc | hc
  · rcases List.mem_replicate.mp hc with ⟨_, rfl⟩
    exact ⟨0, by omega, rfl⟩
  · exact hdec _ _ _ hc

/-! ## Lexicographic string comparison

Python compares strings (and `Path`s within one directory) by code points,
left to right.  `charListLe` is that comparison; `strLe` lifts it to
`String`. -/

def charListLe : List Char → List Char → Bool
  | [], _ => true
  | _ :: _, [] => false
  | a :: as, b :: bs => if a < b then true else if b < a then false else charListLe as bs

def strLe (a b : String) : Prop := charListLe a.data b.data = true

instance : DecidableRel strLe := fun a b =>
  inferInstanceAs (Decidable (charListLe a.data b.data = true))

theorem charListLe_total (xs ys : List Char) :
    charListLe xs ys = true ∨ charListLe ys xs = true := by
  induction xs generalizing ys with
  | nil => left; rfl
  | cons a as ih =>
    cases ys with
    | nil => right; rfl
    | cons b bs =>
      rcases lt_trichotomy a b with h | h | h
      · left; simp [charListLe, h]
      · subst h
        rcases ih bs with h2 | h2
        · left; simp [charListLe, lt_irrefl, h2]
        · right; simp [charListLe, lt_irrefl, h2]
      · right; simp [charListLe, h]

theorem charListLe_trans {xs ys zs : List Char} (h1 : charListLe xs ys = true)
    (h2 : charListLe ys zs = true) : charListLe xs zs = true := by
  induction xs generalizing ys zs with
  | nil => rfl
  | cons a as ih =>
    cases ys with
    | nil => simp [charListLe] at h1
    | cons b bs =>
      cases zs with
      | nil => simp [charListLe] at h2
      | cons c cs =>
        simp only [charListLe] at h1 h2 ⊢
        rcases lt_trichotomy a b with hab | hab | hab
        · rcases lt_trichotomy a c with hac | hac | hac
          · simp [hac]
          · subst hac
            simp [asymm hab, hab] at h2
          · exfalso
            have hcb : c < b := lt_trans hac hab
            simp [asymm hcb, hcb] at h2
        · subst hab
          rcases lt_trichotomy a c with hac | hac | hac
          · simp [hac]
          · subst hac
            simp only [lt_irrefl, if_false] at h1 h2 ⊢
            exact ih h1 h2
          · simp [asymm hac, hac] at h2
        · simp [hab, asymm hab] at h1

theorem charListLe_antisymm {xs ys : List Char} (h1 : charListLe xs ys = true)
    (h2 : charListLe ys xs = true) : xs = ys := by
  induction xs generalizing ys with
  | nil =>
    cases ys with
    | nil => rfl
    | cons b bs => simp [charListLe] at h2
  | cons a as ih =>
    cases ys with
    | nil => simp [charListLe] at h1
    | cons b bs =>
      simp only [charListLe] at h1 h2
      rcases lt_trichotomy a b with hab | hab | hab
      · simp [hab, asymm hab] at h2
      · subst hab
        simp only [lt_irrefl, if_false] at h1 h2
        have := ih h1 h2
        rw [this]
      · simp [hab, asymm hab] at h1

instance : IsTotal String strLe :=
  ⟨fun a b => charListLe_total a.data b.data⟩

instance : IsTrans String strLe :=
  ⟨fun _ _ _ h1 h2 => charListLe_trans h1 h2⟩

instance : IsAntisymm String strLe :=
  ⟨fun _ _ h1 h2 => String.ext (charListLe_antisymm h1 h2)⟩

theorem decVal_lt_pow (cs : List Char)
    (h : ∀ c ∈ cs, ∃ d, d < 10 ∧ c = digitChar d) :
    decVal cs < 10 ^ cs.length := by
  induction cs with
  | nil => rw [decVal_nil]; simp
  | cons c cs ih =>
    rw [decVal_cons]
    obtain ⟨d, hd, rfl⟩ := h c (List.mem_cons_self _ _)
    have hcv : charVal (digitChar d) = d := charVal_digitChar d hd
    have hih : decVal cs < 10 ^ cs.length := ih fun x hx => h x (List.mem_cons_of_mem _ hx)
    have hpow : 10 ^ (digitChar d :: cs).length = 10 * 10 ^ cs.length := by
      rw [List.length_cons, pow_succ]
      ring
    rw [hcv, hpow]
    calc d * 10 ^ cs.length + decVal cs
        < d * 10 ^ cs.length + 10 ^ cs.length := Nat.add_lt_add_left hih _
      _ = (d + 1) * 10 ^ cs.length := by ring
      _ ≤ 10 * 10 ^ cs.length := mul_le_mul_right' (by omega) _

/-- Lexicographic comparison of equal-length digit strings with a common
tail agrees with numeric comparison. -/
theorem charListLe_append_of_decVal_lt (xs ys s : List Char)
    (hlen : xs.length = ys.length)
    (hx : ∀ c ∈ xs, ∃ d, d < 10 ∧ c = digitChar d)
    (hy : ∀ c ∈ ys, ∃ d, d < 10 ∧ c = digitChar d)
    (hlt : decVal xs < decVal ys) :
    charListLe (xs ++ s) (ys ++ s) = true := by
  induction xs generalizing ys with
  | nil =>
    cases ys with
    | nil => simp [decVal_nil] at hlt
    | cons b bs => simp at hlen
  | cons a as ih =>
    cases ys with
    | nil => simp at hlen
    | cons b bs =>
      obtain ⟨da, hda, rfl⟩ := hx _ (List.mem_cons_self _ _)
      obtain ⟨db, hdb, rfl⟩ := hy _ (List.mem_cons_self _ _)
      have hlen2 : as.length = bs.length := by simpa using hlen
      rw [List.cons_append, List.cons_append]
      show (if digitChar da < digitChar db then true
        else if digitChar db < digitChar da then false
        else charListLe (as ++ s) (bs ++ s)) = true
      rcases lt_trichotomy da db with hd | hd | hd
      · rw [if_pos ((digitChar_lt_digitChar da hda db hdb).mp hd)]
      · subst hd
        rw [if_neg (lt_irrefl _), if_neg (lt_irrefl _)]
        apply ih
        · exact hlen2
        · exact fun c hc => hx c (List.mem_cons_of_mem _ hc)
        · exact fun c hc => hy c (List.mem_cons_of_mem _ hc)
        · rw [decVal_cons, decVal_cons] at hlt
          rw [hlen2] at hlt
          exact Nat.lt_of_add_lt_add_left hlt
      · exfalso
        rw [decVal_cons, decVal_cons] at hlt
        have hbound : decVal bs < 10 ^ bs.length :=
          decVal_lt_pow bs fun c hc => hy c (List.mem_cons_of_mem _ hc)
        rw [charVal_digitChar da hda, charVal_digitChar db hdb, hlen2] at hlt
        have h1 : db * 10 ^ bs.length + 10 ^ bs.length ≤ da * 10 ^ bs.length := by
          have hsucc : db + 1 ≤ da := hd
          calc db * 10 ^ bs.length + 10 ^ bs.length = (db + 1) * 10 ^ bs.length := by ring
            _ ≤ da * 10 ^ bs.length := mul_le_mul_right' hsucc _
        have h2 : da * 10 ^ bs.length ≤ da * 10 ^ bs.length + decVal as :=
          Nat.le_add_right _ _
        linarith

/-! ## `pathlib` name manipulation

`Path(name).suffix` : the final component's extension, i.e. `name[i:]`
where `i` is the index of the last `'.'`, provided `0 < i < len(name)-1`,
else `""`.  `with_suffix(s)` replaces it: `stem + s`. -/

def sufSplit (cs : List Char) : List Char :=
  let pre := cs.reverse.takeWhile (fun c => c ≠ '.')
  if 0 < pre.length ∧ pre.length + 1 < cs.length then '.' :: pre.reverse else []

/-- `Path(n).suffix`. -/
def nameSuffix (n : String) : String := String.mk (sufSplit n.data)

/-- `Path(n).stem` (the name with `Path(n).suffix` removed). -/
def nameStem (n : String) : String :=
  String.mk (n.data.take (n.data.length - (sufSplit n.data).length))

/-- `Path(n).with_suffix(newSfx).name`. -/
def withSuffixName (n newSfx : String) : String := nameStem n ++ newSfx

/-- ASCII lowering, the fragment of `str.lower()` relevant to suffixes. -/
def charLower (c : Char) : Char :=
  if 'A' ≤ c ∧ c ≤ 'Z' then Char.ofNat (c.toNat + 32) else c

/-- `s.lower()` on ASCII strings. -/
def strLower (s : String) : String := String.mk (s.data.map charLower)

/-- Glob match against the pattern `*<sfx>`: the name ends with `sfx`. -/
def strEndsWith (n sfx : String) : Bool :=
  decide (sfx.data.length ≤ n.data.length) &&
  decide (n.data.drop (n.data.length - sfx.data.length) = sfx.data)

/-- A well-formed configured suffix: a dot followed by a non-empty,
dot-free extension (e.g. `".jpg"`). -/
def SuffixOK (sfx : String) : Prop :=
  sfx.data.head? = some '.' ∧ sfx.data.tail ≠ [] ∧ '.' ∉ sfx.data.tail

instance (sfx : String) : Decidable (SuffixOK sfx) := by
  unfold SuffixOK
  infer_instance

theorem SuffixOK.data_eq {sfx : String} (h : SuffixOK sfx) :
    ∃ r, sfx.data = '.' :: r ∧ r ≠ [] ∧ '.' ∉ r := by
  obtain ⟨h1, h2, h3⟩ := h
  cases hd : sfx.data with
  | nil => rw [hd] at h1; simp at h1
  | cons c cs =>
    rw [hd] at h1 h2 h3
    simp only [List.head?_cons, Option.some.injEq] at h1
    subst h1
    simp only [List.tail_cons] at h2 h3
    exact ⟨cs, rfl, h2, h3⟩

theorem data_ne_nil_of_ne_empty {a : String} (h : a ≠ "") : a.data ≠ [] := by
  intro hd
  exact h (String.ext (by rw [hd]))

theorem mk_ne_empty_of_ne_nil {l : List Char} (h : l ≠ []) : String.mk l ≠ "" := by
  intro he
  have : l = [] := by
    have := congrArg String.data he
    simpa using this
  exact h this

theorem takeWhile_all_append (p : Char → Bool) (xs : List Char) (y : Char)
    (ys : List Char) (hxs : ∀ x ∈ xs, p x = true) (hy : p y = false) :
    (xs ++ y :: ys).takeWhile p = xs := by
  induction xs with
  | nil => simp [List.takeWhile, hy]
  | cons x xs ih =>
    rw [List.cons_append]
    rw [List.takeWhile_cons]
    rw [hxs x (List.mem_cons_self _ _)]
    simp only [if_true]
    rw [ih fun z hz => hxs z (List.mem_cons_of_mem _ hz)]

theorem sufSplit_append (a r : List Char) (ha : a ≠ []) (hr : r ≠ [])
    (hdot : '.' ∉ r) : sufSplit (a ++ '.' :: r) = '.' :: r := by
  have hrev : (a ++ '.' :: r).reverse = r.reverse ++ '.' :: a.reverse := by
    rw [List.reverse_append, List.reverse_cons, List.append_assoc]
    rfl
  have hpre : (a ++ '.' :: r).reverse.takeWhile (fun c => c ≠ '.') = r.reverse := by
    rw [hrev]
    apply takeWhile_all_append
    · intro x hx
      have : x ∈ r := List.mem_reverse.mp hx
      simp only [decide_eq_true_eq]
      intro he
      exact hdot (he ▸ this)
    · simp
  unfold sufSplit
  rw [hpre]
  have hlr : 0 < r.reverse.length := by
    rw [List.length_reverse]
    exact List.length_pos.mpr hr
  have hla : 0 < a.length := List.length_pos.mpr ha
  have hcond : 0 < r.reverse.length ∧ r.reverse.length + 1 < (a ++ '.' :: r).length := by
    constructor
    · exact hlr
    · rw [List.length_append, List.length_cons, List.length_reverse]
      omega
  rw [if_pos hcond, List.reverse_reverse]

theorem withSuffixName_append (a sfx s : String) (ha : a ≠ "") (h : SuffixOK sfx) :
    withSuffixName (a ++ sfx) s = a ++ s := by
  obtain ⟨r, hr, hrne, hrdot⟩ := h.data_eq
  have hdata : (a ++ sfx).data = a.data ++ '.' :: r := by
    rw [String.data_append, hr]
  have hsplit : sufSplit ((a ++ sfx).data) = '.' :: r := by
    rw [hdata]
    exact sufSplit_append _ _ (data_ne_nil_of_ne_empty ha) hrne hrdot
  unfold withSuffixName nameStem
  rw [hsplit, hdata]
  have hlen : (a.data ++ '.' :: r).length - ('.' :: r).length = a.data.length := by
    rw [List.length_append]
    omega
  rw [hlen]
  have htake : (a.data ++ '.' :: r).take a.data.length = a.data :=
    List.take_left _ _
  rw [htake]

theorem strEndsWith_append (a sfx : String) : strEndsWith (a ++ sfx) sfx = true := by
  unfold strEndsWith
  rw [String.data_append]
  have hlen : (a.data ++ sfx.data).length - sfx.data.length = a.data.length := by
    rw [List.length_append]
    omega
  rw [hlen]
  have hdrop : (a.data ++ sfx.data).drop a.data.length = sfx.data := List.drop_left _ _
  rw [hdrop]
  simp [List.length_append]

/-! ## The path resolver

`get_album_cover_path`, `get_photo_dir`, the thumbnail location of
`ensure_thumbnail`, and the zero-padded page file name of
`ensure_photo_images` (`f"{idx + 1:05}{FINAL_SUFFIX}"`).  Paths are
root-relative (`PHOTO_ROOT = <root>/photos`, `THUMB_ROOT =
<root>/thumbnails`). -/

/-- Digit part of the page file name: `f"{idx + 1:05}"` (`idx` 0-based). -/
def pageStem (i : Nat) : List Char := zeroPad 5 (decChars (i + 1))

/-- Page file name `f"{idx + 1:05}{FINAL_SUFFIX}"`. -/
def pageName (sfx : String) (i : Nat) : String := String.mk (pageStem i) ++ sfx

/-- `get_photo_dir`: `PHOTO_ROOT / str(album_id) / str(photo_id)`. -/
def photoDir (albumId photoId : String) : FsPath := ["photos", albumId, photoId]

/-- `get_album_cover_path`: `PHOTO_ROOT / str(album_id) / f"cover{FINAL_SUFFIX}"`. -/
def coverPath (sfx albumId : String) : FsPath := ["photos", albumId, "cover" ++ sfx]

/-- Thumbnail location: `THUMB_ROOT / f"{album_id}{FINAL_SUFFIX}"`. -/
def thumbPath (sfx albumId : String) : FsPath := ["thumbnails", albumId ++ sfx]

theorem pageName_data (sfx : String) (i : Nat) :
    (pageName sfx i).data = pageStem i ++ sfx.data := by
  unfold pageName
  rw [String.data_append]

theorem pageStem_ne_nil (i : Nat) : pageStem i ≠ [] := by
  unfold pageStem zeroPad
  intro h
  rcases List.append_eq_nil.mp h with ⟨_, h2⟩
  exact decChars_ne_nil _ h2

theorem decVal_pageStem (i : Nat) : decVal (pageStem i) = i + 1 := by
  unfold pageStem
  rw [decVal_zeroPad, decVal_decChars]

theorem pageName_injective (sfx : String) {i j : Nat}
    (h : pageName sfx i = pageName sfx j) : i = j := by
  have hd : pageStem i ++ sfx.data = pageStem j ++ sfx.data := by
    have := congrArg String.data h
    rwa [pageName_data, pageName_data] at this
  have hstem : pageStem i = pageStem j := List.append_cancel_right hd
  have := congrArg decVal hstem
  rw [decVal_pageStem, decVal_pageStem] at this
  omega

theorem pageStem_length (i : Nat) (h : i < 99999) : (pageStem i).length = 5 := by
  unfold pageStem
  apply zeroPad_length
  apply decChars_length_le
  · omega
  · norm_num
    omega

theorem pageStem_digits (i : Nat) :
    ∀ c ∈ pageStem i, ∃ d, d < 10 ∧ c = digitChar d :=
  mem_zeroPad_decChars _ _

theorem pageName_strLe (sfx : String) {i j : Nat} (hij : i < j) (hj : j < 99999) :
    strLe (pageName sfx i) (pageName sfx j) := by
  unfold strLe
  rw [pageName_data, pageName_data]
  apply charListLe_append_of_decVal_lt
  · rw [pageStem_length i (by omega), pageStem_length j hj]
  · exact pageStem_digits i
  · exact pageStem_digits j
  · rw [decVal_pageStem, decVal_pageStem]
    omega

theorem sorted_pageNames (sfx : String) (K : Nat) (hK : K ≤ 99999) :
    List.Sorted strLe ((List.range K).map (pageName sfx)) := by
  rw [List.Sorted, List.pairwise_map]
  apply List.Pairwise.imp_of_mem _ (List.pairwise_lt_range K)
  intro a b ha hb hab
  exact pageName_strLe sfx hab (by rw [List.mem_range] at hb; omega)

theorem nodup_pageNames (sfx : String) (K : Nat) :
    ((List.range K).map (pageName sfx)).Nodup :=
  List.Nodup.map (fun _ _ h => pageName_injective sfx h) (List.nodup_range K)

/-! ## Directory enumeration

`sorted(photo_dir.glob(f"*{FINAL_SUFFIX}"))`: the names directly inside a
directory whose name matches `*<sfx>`, sorted by the string order Python
uses for `Path`s of one directory. -/

/-- If `p` is directly inside `dir`, its file name. -/
def fileNameIn (dir : List String) (p : FsPath) : Option String :=
  if p.take dir.length = dir then
    match p.drop dir.length with
    | [n] => some n
    | _ => none
  else none

/-- `sorted(dir.glob(f"*{sfx}"))`, as the sorted list of file names. -/
def globNames (fs : FS) (dir : List String) (sfx : String) : List String :=
  List.insertionSort strLe
    (((fs.map Prod.fst).filterMap (fileNameIn dir)).filter (fun n => strEndsWith n sfx))

theorem fileNameIn_eq_some {dir : List String} {p : FsPath} {n : String} :
    fileNameIn dir p = some n ↔ p = dir ++ [n] := by
  constructor
  · intro h
    unfold fileNameIn at h
    by_cases hc : p.take dir.length = dir
    · rw [if_pos hc] at h
      cases hdrop : p.drop dir.length with
      | nil => rw [hdrop] at h; simp at h
      | cons m rest =>
        cases rest with
        | nil =>
          rw [hdrop] at h
          simp only [Option.some.injEq] at h
          subst h
          have := List.take_append_drop dir.length p
          rw [hc, hdrop] at this
          exact this.symm
        | cons _ _ => rw [hdrop] at h; simp at h
    · rw [if_neg hc] at h; simp at h
  · intro h
    subst h
    unfold fileNameIn
    rw [List.take_left, List.drop_left]
    simp

theorem mem_globNames {fs : FS} {dir : List String} {sfx n : String} :
    n ∈ globNames fs dir sfx ↔
      fsExists fs (dir ++ [n]) = true ∧ strEndsWith n sfx = true := by
  unfold globNames
  rw [(List.perm_insertionSort strLe _).mem_iff, List.mem_filter, List.mem_filterMap]
  constructor
  · rintro ⟨⟨p, hp, hfn⟩, hends⟩
    have := fileNameIn_eq_some.mp hfn
    subst this
    exact ⟨(fsExists_iff_mem_keys _ _).mpr hp, hends⟩
  · rintro ⟨hex, hends⟩
    exact ⟨⟨dir ++ [n], (fsExists_iff_mem_keys _ _).mp hex, fileNameIn_eq_some.mpr rfl⟩,
      hends⟩

theorem sorted_globNames (fs : FS) (dir : List String) (sfx : String) :
    List.Sorted strLe (globNames fs dir sfx) :=
  List.sorted_insertionSort strLe _

theorem nodup_globNames {fs : FS} (h : FSNodup fs) (dir : List String) (sfx : String) :
    (globNames fs dir sfx).Nodup := by
  unfold globNames
  rw [(List.perm_insertionSort strLe _).nodup_iff]
  apply List.Nodup.filter
  apply List.Nodup.filterMap _ h
  intro p q n hn hn2
  rw [fileNameIn_eq_some.mp hn, fileNameIn_eq_some.mp hn2]

/-! ## The format normalizer

```
def convert_to_format(source_path, target_path):
    target_path.parent.mkdir(parents=True, exist_ok=True)
    try:
        with Image.open(source_path) as img:
            if source_path.suffix.lower() == target_path.suffix.lower() \
               and source_path == target_path:
                return
            img.convert("RGB").save(target_path, format="JPEG", quality=90)
    finally:
        if source_path.exists() and source_path != target_path:
            source_path.unlink(missing_ok=True)
```

`ok` records normal return (no exception), `opened` whether
`Image.open` was invoked on the source, `encoded` whether the
decode-and-re-encode (`img.convert("RGB").save(..)`) ran to completion. -/

structure ConvertResult where
  fs : FS
  ok : Bool
  opened : Bool
  encoded : Bool
deriving DecidableEq

/-- Last path component (`Path(p).name`), used for the suffix check. -/
def lastName (p : FsPath) : String := p.getLast?.getD ""

/-- The `finally` block of `convert_to_format`. -/
def convertCleanup (source target : FsPath) (fs : FS) : FS :=
  if fsExists fs source = true ∧ source ≠ target then fsDel fs source else fs

def convert_to_format (source target : FsPath) (fs : FS) : ConvertResult :=
  match fsGet fs source with
  | none =>
      -- Image.open raises FileNotFoundError; finally: source absent, no unlink
      { fs := fs, ok := false, opened := true, encoded := false }
  | some b =>
      if b.openable then
        if strLower (nameSuffix (lastName source)) = strLower (nameSuffix (lastName target))
            ∧ source = target then
          -- already canonical: early return inside the with block
          { fs := convertCleanup source target fs, ok := true, opened := true,
            encoded := false }
        else
          if b.decodable then
            -- img.convert("RGB") succeeds and save commits the JPEG bytes
            { fs := convertCleanup source target (fsSet fs target (encodeRGB b)),
              ok := true, opened := true, encoded := true }
          else
            -- img.convert("RGB") raises; nothing written at target
            { fs := convertCleanup source target fs, ok := false, opened := true,
              encoded := false }
      else
        -- Image.open raises UnidentifiedImageError
        { fs := convertCleanup source target fs, ok := false, opened := true,
          encoded := false }

theorem convertCleanup_get (source target : FsPath) (fs : FS) (q : FsPath) :
    fsGet (convertCleanup source target fs) q =
      if q = source ∧ source ≠ target then none else fsGet fs q := by
  unfold convertCleanup
  by_cases h1 : fsExists fs source = true ∧ source ≠ target
  · rw [if_pos h1, fsGet_fsDel]
    by_cases h2 : q = source
    · subst h2
      rw [if_pos rfl, if_pos ⟨rfl, h1.2⟩]
    · rw [if_neg h2, if_neg (fun hc => h2 hc.1)]
  · rw [if_neg h1]
    by_cases h2 : q = source ∧ source ≠ target
    · obtain ⟨rfl, hne⟩ := h2
      have : ¬ fsExists fs q = true := fun hc => h1 ⟨hc, hne⟩
      rw [if_pos ⟨rfl, hne⟩]
      unfold fsExists at this
      cases hg : fsGet fs q with
      | none => rfl
      | some _ => rw [hg] at this; simp at this
    · rw [if_neg h2]

/-- On failure the normalizer leaves the target untouched. -/
theorem convert_failed_target_unchanged (source target : FsPath) (fs : FS)
    (h : (convert_to_format source target fs).ok = false) :
    fsGet (convert_to_format source target fs).fs target = fsGet fs target := by
  cases hg : fsGet fs source with
  | none =>
    unfold convert_to_format
    rw [hg]
  | some b =>
    unfold convert_to_format at h ⊢
    rw [hg] at h ⊢
    simp only at h ⊢
    by_cases hop : b.openable
    · rw [if_pos hop] at h ⊢
      by_cases hsame : strLower (nameSuffix (lastName source))
          = strLower (nameSuffix (lastName target)) ∧ source = target
      · rw [if_pos hsame] at h; simp at h
      · rw [if_neg hsame] at h ⊢
        by_cases hdec : b.decodable
        · rw [if_pos hdec] at h; simp at h
        · rw [if_neg hdec] at h ⊢
          rw [convertCleanup_get]
          by_cases hq : target = source ∧ source ≠ target
          · exact absurd hq.1.symm hq.2
          · rw [if_neg hq]
    · rw [if_neg hop] at h ⊢
      rw [convertCleanup_get]
      by_cases hq : target = source ∧ source ≠ target
      · exact absurd hq.1.symm hq.2
      · rw [if_neg hq]

/-- The normalizer always removes a source that differs from the target. -/
theorem convert_source_removed (source target : FsPath) (fs : FS)
    (hne : source ≠ target) :
    fsGet (convert_to_format source target fs).fs source = none := by
  cases hg : fsGet fs source with
  | none =>
    unfold convert_to_format
    rw [hg]
    exact hg
  | some b =>
    unfold convert_to_format
    rw [hg]
    simp only
    by_cases hop : b.openable
    · rw [if_pos hop]
      by_cases hsame : strLower (nameSuffix (lastName source))
          = strLower (nameSuffix (lastName target)) ∧ source = target
      · exact absurd hsame.2 hne
      · rw [if_neg hsame]
        by_cases hdec : b.decodable
        · rw [if_pos hdec]
          simp only
          rw [convertCleanup_get, if_pos ⟨rfl, hne⟩]
        · rw [if_neg hdec]
          simp only
          rw [convertCleanup_get, if_pos ⟨rfl, hne⟩]
    · rw [if_neg hop]
      simp only
      rw [convertCleanup_get, if_pos ⟨rfl, hne⟩]

/-- A successful normalization leaves a file at the target. -/
theorem convert_ok_target_exists (source target : FsPath) (fs : FS)
    (h : (convert_to_format source target fs).ok = true) :
    fsExists (convert_to_format source target fs).fs target = true := by
  cases hg : fsGet fs source with
  | none =>
    unfold convert_to_format at h
    rw [hg] at h
    simp at h
  | some b =>
    unfold convert_to_format at h ⊢
    rw [hg] at h ⊢
    simp only at h ⊢
    by_cases hop : b.openable
    · rw [if_pos hop] at h ⊢
      by_cases hsame : strLower (nameSuffix (lastName source))
          = strLower (nameSuffix (lastName target)) ∧ source = target
      · rw [if_pos hsame] at h ⊢
        obtain ⟨_, rfl⟩ := hsame
        simp only
        unfold fsExists
        rw [convertCleanup_get]
        simp [hg]
      · rw [if_neg hsame] at h ⊢
        by_cases hdec : b.decodable
        · rw [if_pos hdec]
          simp only
          unfold fsExists
          rw [convertCleanup_get]
          have hne2 : ¬ (target = source ∧ source ≠ target) := fun hc => hc.2 hc.1.symm
          rw [if_neg hne2, fsGet_fsSet, if_pos rfl]
          rfl
        · rw [if_neg hdec] at h; simp at h
    · rw [if_neg hop] at h; simp at h

/-! ## Single-artifact cache gates

`ensure_album_cover` / `ensure_thumbnail`: HIT on an existing file when
the cache is enabled; delete-then-refetch when it is disabled; download
to a temporary name and normalize otherwise.  The external collaborator
(`client.download_album_cover`) is the parameter `dlCover`: `some b`
delivers bytes `b` into the requested path, `none` raises without
writing.  `path = none` models the call raising; `downloads` counts
collaborator invocations. -/

structure EnsureOneResult where
  fs : FS
  path : Option FsPath
  downloads : Nat
deriving DecidableEq

def ensure_album_cover (sfx : String) (cache : Bool) (albumId : String)
    (dlCover : Option Bytes) (fs : FS) : EnsureOneResult :=
  let cover := coverPath sfx albumId
  if fsExists fs cover && cache then
    { fs := fs, path := some cover, downloads := 0 }
  else
    let fs1 := if fsExists fs cover then fsDel fs cover else fs
    if strLower sfx = ".webp" then
      -- download straight to the canonical path, no conversion
      match dlCover with
      | none => { fs := fs1, path := none, downloads := 1 }
      | some b => { fs := fsSet fs1 cover b, path := some cover, downloads := 1 }
    else
      -- download to cover.webp, then convert to the canonical format
      let tmp : FsPath := ["photos", albumId, "cover.webp"]
      match dlCover with
      | none => { fs := fs1, path := none, downloads := 1 }
      | some b =>
          let c := convert_to_format tmp cover (fsSet fs1 tmp b)
          { fs := c.fs, path := if c.ok then some cover else none, downloads := 1 }

def ensure_thumbnail (sfx : String) (cache : Bool) (albumId : String)
    (dlCover : Option Bytes) (fs : FS) : EnsureOneResult :=
  let tp := thumbPath sfx albumId
  if fsExists fs tp && cache then
    { fs := fs, path := some tp, downloads := 0 }
  else
    let fs1 := if fsExists fs tp then fsDel fs tp else fs
    -- tmp_path = thumbnail_path.with_suffix(".dl")
    let tmp : FsPath := ["thumbnails", withSuffixName (albumId ++ sfx) ".dl"]
    match dlCover with
    | none => { fs := fs1, path := none, downloads := 1 }
    | some b =>
        let c := convert_to_format tmp tp (fsSet fs1 tmp b)
        { fs := c.fs, path := if c.ok then some tp else none, downloads := 1 }

/-- The `DELETE /api/albums/{album_id}/thumbnail` endpoint body: note the
hardcoded `.jpg` suffix (`THUMB_ROOT / f"{album_id}.jpg"`), regardless of
the configured canonical suffix. -/
def delete_album_thumbnail (albumId : String) (fs : FS) : FS × Bool :=
  let thumbnail_path : FsPath := ["thumbnails", albumId ++ ".jpg"]
  if fsExists fs thumbnail_path then (fsDel fs thumbnail_path, true)
  else (fs, false)

/-! ## The concurrent fetch orchestrator

`ensure_photo_images` with its inner worker `download_one`.  Parameters:
`dl i` is the collaborator's behaviour for page `i` (`client.download_image`
writes bytes into the requested temp path, or raises = `none`); `fname i`
is `image.filename` for page `i` (only its `Path(..).suffix` matters).
The wave is a left fold of `download_one` over the dispatched index list:
jobs of one wave own disjoint target/temp files, every submitted job runs
(the `with` block shuts the pool down with `wait=True`) and
`list(executor.map(..))` re-raises the first failure, recorded in
`failed`. -/

structure WaveState where
  fs : FS
  failed : Bool
  downloads : Nat
deriving DecidableEq

/-- `original_suffix = Path(image.filename).suffix or FINAL_SUFFIX`. -/
def origOf (sfx : String) (fname : Nat → String) (i : Nat) : String :=
  if nameSuffix (fname i) = "" then sfx else nameSuffix (fname i)

/-- `tmp_path = target.with_suffix(original_suffix)` (file name part). -/
def tmpName (sfx : String) (fname : Nat → String) (i : Nat) : String :=
  withSuffixName (pageName sfx i) (origOf sfx fname i)

def download_one (sfx : String) (dir : List String) (dl : Nat → Option Bytes)
    (fname : Nat → String) (st : WaveState) (i : Nat) : WaveState :=
  let target := dir ++ [pageName sfx i]
  let tmp := dir ++ [tmpName sfx fname i]
  match dl i with
  | none => { fs := st.fs, failed := true, downloads := st.downloads + 1 }
  | some b =>
      let c := convert_to_format tmp target (fsSet st.fs tmp b)
      { fs := c.fs, failed := st.failed || !c.ok, downloads := st.downloads + 1 }

structure FetchAllResult where
  fs : FS
  result : Option (List FsPath)
  downloads : Nat
deriving DecidableEq

def ensure_photo_images (sfx : String) (cache : Bool) (albumId photoId : String)
    (total : Nat) (dl : Nat → Option Bytes) (fname : Nat → String) (fs : FS) :
    FetchAllResult :=
  let dir := photoDir albumId photoId
  let existing := globNames fs dir sfx
  let fs1 := if cache then fs else existing.foldl (fun a n => fsDel a (dir ++ [n])) fs
  let existing1 := if cache then existing else []
  if cache && decide (0 < total) && decide (total ≤ existing1.length) then
    { fs := fs1, result := some (existing1.map (fun n => dir ++ [n])), downloads := 0 }
  else
    let indices :=
      if cache then
        (List.range total).filter (fun i => !(fsExists fs1 (dir ++ [pageName sfx i])))
      else List.range total
    let final := indices.foldl (download_one sfx dir dl fname) ⟨fs1, false, 0⟩
    { fs := final.fs,
      result := if final.failed then none
        else some ((globNames final.fs dir sfx).map (fun n => dir ++ [n])),
      downloads := final.downloads }

/-- Whether page job `i` reaches its final log line (no exception). -/
def jobOk (sfx : String) (fname : Nat → String) (dl : Nat → Option Bytes)
    (i : Nat) : Bool :=
  match dl i with
  | none => false
  | some b =>
      if origOf sfx fname i = sfx then b.openable else b.openable && b.decodable

/-- Contents of page `i`'s canonical file after its job ran over `fs0`. -/
def targetVal (sfx : String) (fname : Nat → String) (dl : Nat → Option Bytes)
    (fs0 : FS) (dir : List String) (i : Nat) : Option Bytes :=
  match dl i with
  | none => fsGet fs0 (dir ++ [pageName sfx i])
  | some b =>
      if origOf sfx fname i = sfx then some b
      else if b.openable && b.decodable then some (encodeRGB b)
      else fsGet fs0 (dir ++ [pageName sfx i])

/-- Read-back of the store after a wave over index list `L` started from
`fs0`. -/
def waveGet (sfx : String) (fname : Nat → String) (dl : Nat → Option Bytes)
    (fs0 : FS) (dir : List String) (q : FsPath) : List Nat → Option Bytes
  | [] => fsGet fs0 q
  | i :: rest =>
      if q = dir ++ [pageName sfx i] then targetVal sfx fname dl fs0 dir i
      else if (dl i).isSome = true ∧ origOf sfx fname i ≠ sfx ∧
          q = dir ++ [tmpName sfx fname i] then none
      else waveGet sfx fname dl fs0 dir q rest

theorem strAppend_left_cancel {a x y : String} (h : a ++ x = a ++ y) : x = y := by
  have hd := congrArg String.data h
  rw [String.data_append, String.data_append] at hd
  exact String.ext (List.append_cancel_left hd)

theorem dirAppend_inj {dir : List String} {x y : String} :
    dir ++ [x] = dir ++ [y] ↔ x = y := by
  constructor
  · intro h
    have := List.append_cancel_left h
    simpa using this
  · intro h; rw [h]

theorem tmpName_eq (sfx : String) (fname : Nat → String) (i : Nat)
    (hsfx : SuffixOK sfx) :
    tmpName sfx fname i = String.mk (pageStem i) ++ origOf sfx fname i :=
  withSuffixName_append (String.mk (pageStem i)) sfx _
    (mk_ne_empty_of_ne_nil (pageStem_ne_nil i)) hsfx

theorem tmpName_eq_pageName_iff (sfx : String) (fname : Nat → String) (i : Nat)
    (hsfx : SuffixOK sfx) :
    tmpName sfx fname i = pageName sfx i ↔ origOf sfx fname i = sfx := by
  rw [tmpName_eq sfx fname i hsfx]
  unfold pageName
  constructor
  · exact fun h => strAppend_left_cancel h
  · intro h; rw [h]

theorem tmpName_ne_pageName (sfx : String) (fname : Nat → String) {i j : Nat}
    (hsfx : SuffixOK sfx) (hi : i < 99999) (hj : j < 99999)
    (horig : origOf sfx fname i ≠ sfx) :
    tmpName sfx fname i ≠ pageName sfx j := by
  intro h
  rw [tmpName_eq sfx fname i hsfx] at h
  have hd := congrArg String.data h
  rw [String.data_append, pageName_data] at hd
  have hlen : (pageStem i).length = (pageStem j).length := by
    rw [pageStem_length i hi, pageStem_length j hj]
  obtain ⟨-, h2⟩ := List.append_inj hd hlen
  exact horig (String.ext h2)

theorem tmpName_inj (sfx : String) (fname : Nat → String) {i j : Nat}
    (hsfx : SuffixOK sfx) (hi : i < 99999) (hj : j < 99999)
    (h : tmpName sfx fname i = tmpName sfx fname j) : i = j := by
  rw [tmpName_eq sfx fname i hsfx, tmpName_eq sfx fname j hsfx] at h
  have hd := congrArg String.data h
  rw [String.data_append, String.data_append] at hd
  have hlen : (pageStem i).length = (pageStem j).length := by
    rw [pageStem_length i hi, pageStem_length j hj]
  obtain ⟨h1, -⟩ := List.append_inj hd hlen
  have := congrArg decVal h1
  rw [decVal_pageStem, decVal_pageStem] at this
  omega

/-- `fsDel` is idempotent. -/
theorem fsDel_idem (fs : FS) (p : FsPath) : fsDel (fsDel fs p) p = fsDel fs p := by
  unfold fsDel
  rw [List.filter_filter]
  apply List.filter_congr
  intro e he
  cases h : decide (e.1 ≠ p) <;> simp [h]

theorem fsDel_fsSet_self (fs : FS) (p : FsPath) (b : Bytes) :
    fsDel (fsSet fs p b) p = fsDel fs p := by
  unfold fsSet fsDel
  rw [List.filter_cons_of_neg (by simp)]
  rw [List.filter_filter]
  apply List.filter_congr
  intro e he
  cases h : decide (e.1 ≠ p) <;> simp [h]

/-- Normalizing a just-written file onto itself: the bytes stay as
downloaded; the call succeeds iff `Image.open` accepts them; no encode. -/
theorem convert_self_set (t : FsPath) (fs : FS) (b : Bytes) :
    convert_to_format t t (fsSet fs t b) =
      ⟨fsSet fs t b, b.openable, true, false⟩ := by
  have hget : fsGet (fsSet fs t b) t = some b := by rw [fsGet_fsSet, if_pos rfl]
  have hclean : convertCleanup t t (fsSet fs t b) = fsSet fs t b := by
    unfold convertCleanup
    rw [if_neg (fun hc => hc.2 rfl)]
  unfold convert_to_format
  rw [hget]
  simp only
  cases hob : b.openable with
  | true => rw [if_pos rfl, if_pos (by simp), hclean]
  | false => rw [if_neg (by simp), hclean]

/-- Normalizing a just-written source to a distinct target with fully
decodable bytes: the JPEG re-encode is committed, the source deleted. -/
theorem convert_set_encode (s t : FsPath) (fs : FS) (b : Bytes) (hne : s ≠ t)
    (hop : b.openable = true) (hdec : b.decodable = true) :
    convert_to_format s t (fsSet fs s b) =
      ⟨fsDel (fsSet (fsSet fs s b) t (encodeRGB b)) s, true, true, true⟩ := by
  have hget : fsGet (fsSet fs s b) s = some b := by rw [fsGet_fsSet, if_pos rfl]
  unfold convert_to_format
  rw [hget]
  simp only
  rw [if_pos hop, if_neg (fun hc => hne hc.2), if_pos hdec]
  have hex : fsExists (fsSet (fsSet fs s b) t (encodeRGB b)) s = true := by
    unfold fsExists
    rw [fsGet_fsSet, if_neg hne, hget]
    rfl
  unfold convertCleanup
  rw [if_pos ⟨hex, hne⟩]

/-- Normalizing a just-written source to a distinct target with bytes the
codec rejects: nothing is committed and the source is deleted. -/
theorem convert_set_fail (s t : FsPath) (fs : FS) (b : Bytes) (hne : s ≠ t)
    (hfail : ¬ (b.openable = true ∧ b.decodable = true)) :
    convert_to_format s t (fsSet fs s b) = ⟨fsDel fs s, false, true, false⟩ := by
  have hget : fsGet (fsSet fs s b) s = some b := by rw [fsGet_fsSet, if_pos rfl]
  have hex : fsExists (fsSet fs s b) s = true := by
    unfold fsExists
    rw [hget]
    rfl
  have hclean : convertCleanup s t (fsSet fs s b) = fsDel fs s := by
    unfold convertCleanup
    rw [if_pos ⟨hex, hne⟩]
    exact fsDel_fsSet_self fs s b
  unfold convert_to_format
  rw [hget]
  simp only
  cases hob : b.openable with
  | false => rw [if_neg (by simp), hclean]
  | true =>
    have hdec : b.decodable = false := by
      cases hdb : b.decodable
      · rfl
      · exact absurd ⟨hob, hdb⟩ hfail
    rw [if_pos rfl, if_neg (fun hc => hne hc.2), if_neg (by simp [hdec]), hclean]

theorem download_one_spec (sfx : String) (dir : List String) (dl : Nat → Option Bytes)
    (fname : Nat → String) (hsfx : SuffixOK sfx) (st : WaveState) (i : Nat) :
    (download_one sfx dir dl fname st i).downloads = st.downloads + 1 ∧
    (download_one sfx dir dl fname st i).failed
      = (st.failed || !jobOk sfx fname dl i) ∧
    ∀ q, fsGet (download_one sfx dir dl fname st i).fs q =
      if q = dir ++ [pageName sfx i] then targetVal sfx fname dl st.fs dir i
      else if (dl i).isSome = true ∧ origOf sfx fname i ≠ sfx ∧
          q = dir ++ [tmpName sfx fname i] then none
      else fsGet st.fs q := by
  cases hdl : dl i with
  | none =>
    unfold download_one
    rw [hdl]
    refine ⟨rfl, ?_, ?_⟩
    · unfold jobOk
      rw [hdl]
      simp
    · intro q
      simp only
      by_cases hq : q = dir ++ [pageName sfx i]
      · rw [if_pos hq]
        unfold targetVal
        rw [hdl, hq]
      · rw [if_neg hq, if_neg (by simp)]
  | some b =>
    by_cases horig : origOf sfx fname i = sfx
    · -- temp path coincides with the target: bytes committed as-is
      have htn : tmpName sfx fname i = pageName sfx i :=
        (tmpName_eq_pageName_iff sfx fname i hsfx).mpr horig
      unfold download_one
      rw [hdl]
      simp only [htn]
      rw [convert_self_set]
      refine ⟨by trivial, ?_, ?_⟩
      · unfold jobOk
        rw [hdl]
        simp [horig]
      · intro q
        simp only
        rw [fsGet_fsSet]
        by_cases hq : q = dir ++ [pageName sfx i]
        · rw [if_pos hq, if_pos hq]
          unfold targetVal
          rw [hdl]
          simp [horig]
        · rw [if_neg hq, if_neg hq, if_neg (fun hc => hc.2.1 horig)]
    · -- distinct temp path
      have hne : dir ++ [tmpName sfx fname i] ≠ dir ++ [pageName sfx i] := by
        intro hc
        exact horig
          ((tmpName_eq_pageName_iff sfx fname i hsfx).mp (dirAppend_inj.mp hc))
      by_cases hgood : b.openable = true ∧ b.decodable = true
      · unfold download_one
        rw [hdl]
        simp only
        rw [convert_set_encode _ _ _ _ hne hgood.1 hgood.2]
        refine ⟨by trivial, ?_, ?_⟩
        · unfold jobOk
          rw [hdl]
          simp [horig, hgood.1, hgood.2]
        · intro q
          simp only
          rw [fsGet_fsDel, fsGet_fsSet, fsGet_fsSet]
          by_cases hq : q = dir ++ [pageName sfx i]
          · subst hq
            have hq2 : ¬ (dir ++ [pageName sfx i] = dir ++ [tmpName sfx fname i]) :=
              fun hc => hne hc.symm
            rw [if_neg hq2, if_pos rfl, if_pos rfl]
            unfold targetVal
            rw [hdl]
            simp [horig, hgood.1, hgood.2]
          · by_cases hq3 : q = dir ++ [tmpName sfx fname i]
            · subst hq3
              rw [if_pos rfl, if_neg hq, if_pos ⟨rfl, horig, rfl⟩]
            · rw [if_neg hq3, if_neg hq, if_neg hq3, if_neg hq]
              simp [hq3]
      · have hungood : (b.openable && b.decodable) = false := by
          cases hob : b.openable with
          | false => rfl
          | true =>
            cases hdb : b.decodable with
            | false => rfl
            | true => exact absurd ⟨hob, hdb⟩ hgood
        unfold download_one
        rw [hdl]
        simp only
        rw [convert_set_fail _ _ _ _ hne hgood]
        refine ⟨by trivial, ?_, ?_⟩
        · unfold jobOk
          rw [hdl]
          simp [horig, hungood]
        · intro q
          simp only
          rw [fsGet_fsDel]
          by_cases hq : q = dir ++ [pageName sfx i]
          · subst hq
            have hq2 : ¬ (dir ++ [pageName sfx i] = dir ++ [tmpName sfx fname i]) :=
              fun hc => hne hc.symm
            rw [if_neg hq2, if_pos rfl]
            unfold targetVal
            rw [hdl]
            simp only
            rw [if_neg horig, if_neg (by simp [hungood])]
          · by_cases hq3 : q = dir ++ [tmpName sfx fname i]
            · subst hq3
              rw [if_pos rfl, if_neg hq, if_pos ⟨rfl, horig, rfl⟩]
            · rw [if_neg hq3, if_neg hq]
              simp [hq3]

theorem pagePath_ne (sfx : String) (dir : List String) {i j : Nat} (hij : i ≠ j) :
    dir ++ [pageName sfx i] ≠ dir ++ [pageName sfx j] :=
  fun hc => hij (pageName_injective sfx (dirAppend_inj.mp hc))

theorem tmpPath_ne_pagePath (sfx : String) (fname : Nat → String) (dir : List String)
    {i j : Nat} (hsfx : SuffixOK sfx) (hi : i < 99999) (hj : j < 99999)
    (horig : origOf sfx fname i ≠ sfx) :
    dir ++ [tmpName sfx fname i] ≠ dir ++ [pageName sfx j] :=
  fun hc => tmpName_ne_pageName sfx fname hsfx hi hj horig (dirAppend_inj.mp hc)

theorem tmpPath_inj (sfx : String) (fname : Nat → String) (dir : List String)
    {i j : Nat} (hsfx : SuffixOK sfx) (hi : i < 99999) (hj : j < 99999)
    (hc : dir ++ [tmpName sfx fname i] = dir ++ [tmpName sfx fname j]) : i = j :=
  tmpName_inj sfx fname hsfx hi hj (dirAppend_inj.mp hc)

theorem targetVal_congr (sfx : String) (fname : Nat → String) (dl : Nat → Option Bytes)
    (fs1 fs0 : FS) (dir : List String) (i : Nat)
    (h : fsGet fs1 (dir ++ [pageName sfx i]) = fsGet fs0 (dir ++ [pageName sfx i])) :
    targetVal sfx fname dl fs1 dir i = targetVal sfx fname dl fs0 dir i := by
  unfold targetVal
  cases dl i with
  | none => exact h
  | some b =>
    simp only
    by_cases horig : origOf sfx fname i = sfx
    · rw [if_pos horig, if_pos horig]
    · rw [if_neg horig, if_neg horig]
      by_cases hgood : (b.openable && b.decodable) = true
      · rw [if_pos hgood, if_pos hgood]
      · rw [if_neg hgood, if_neg hgood]
        exact h

theorem waveGet_untouched (sfx : String) (fname : Nat → String) (dl : Nat → Option Bytes)
    (fs0 : FS) (dir : List String) (q : FsPath) :
    ∀ L : List Nat, (∀ j ∈ L, q ≠ dir ++ [pageName sfx j] ∧
      ¬ ((dl j).isSome = true ∧ origOf sfx fname j ≠ sfx ∧
        q = dir ++ [tmpName sfx fname j])) →
    waveGet sfx fname dl fs0 dir q L = fsGet fs0 q := by
  intro L
  induction L with
  | nil => intro _; rfl
  | cons j rest ih =>
    intro h
    obtain ⟨h1, h2⟩ := h j (List.mem_cons_self _ _)
    unfold waveGet
    rw [if_neg h1, if_neg h2]
    exact ih fun k hk => h k (List.mem_cons_of_mem _ hk)

theorem waveGet_congr (sfx : String) (fname : Nat → String) (dl : Nat → Option Bytes)
    (dir : List String) (q : FsPath) :
    ∀ (L : List Nat) (fs1 fs0 : FS),
    (∀ j ∈ L, fsGet fs1 (dir ++ [pageName sfx j]) = fsGet fs0 (dir ++ [pageName sfx j])) →
    fsGet fs1 q = fsGet fs0 q →
    waveGet sfx fname dl fs1 dir q L = waveGet sfx fname dl fs0 dir q L := by
  intro L
  induction L with
  | nil => intro fs1 fs0 _ hq; exact hq
  | cons j rest ih =>
    intro fs1 fs0 ht hq
    unfold waveGet
    by_cases h1 : q = dir ++ [pageName sfx j]
    · rw [if_pos h1, if_pos h1]
      exact targetVal_congr sfx fname dl fs1 fs0 dir j (ht j (List.mem_cons_self _ _))
    · rw [if_neg h1, if_neg h1]
      by_cases h2 : (dl j).isSome = true ∧ origOf sfx fname j ≠ sfx ∧
          q = dir ++ [tmpName sfx fname j]
      · rw [if_pos h2, if_pos h2]
      · rw [if_neg h2, if_neg h2]
        exact ih fs1 fs0 (fun k hk => ht k (List.mem_cons_of_mem _ hk)) hq

theorem waveGet_cons (sfx : String) (fname : Nat → String) (dl : Nat → Option Bytes)
    (fs0 : FS) (dir : List String) (q : FsPath) (i : Nat) (rest : List Nat) :
    waveGet sfx fname dl fs0 dir q (i :: rest) =
      if q = dir ++ [pageName sfx i] then targetVal sfx fname dl fs0 dir i
      else if (dl i).isSome = true ∧ origOf sfx fname i ≠ sfx ∧
          q = dir ++ [tmpName sfx fname i] then none
      else waveGet sfx fname dl fs0 dir q rest := rfl

/-- Full characterization of one fetch wave: download counting, failure
flag, and the resulting store contents. -/
theorem wave_fold_spec (sfx : String) (dir : List String) (dl : Nat → Option Bytes)
    (fname : Nat → String) (hsfx : SuffixOK sfx) :
    ∀ (L : List Nat) (st0 : WaveState), L.Nodup → (∀ i ∈ L, i < 99999) →
    (L.foldl (download_one sfx dir dl fname) st0).downloads
        = st0.downloads + L.length ∧
    (L.foldl (download_one sfx dir dl fname) st0).failed
        = (st0.failed || L.any (fun i => !jobOk sfx fname dl i)) ∧
    ∀ q, fsGet (L.foldl (download_one sfx dir dl fname) st0).fs q
        = waveGet sfx fname dl st0.fs dir q L := by
  intro L
  induction L with
  | nil =>
    intro st0 _ _
    exact ⟨by simp, by simp, fun q => rfl⟩
  | cons i rest ih =>
    intro st0 hnd hbound
    have hi : i < 99999 := hbound i (List.mem_cons_self _ _)
    have hnotmem : i ∉ rest := (List.nodup_cons.mp hnd).1
    have hndrest : rest.Nodup := (List.nodup_cons.mp hnd).2
    have hbrest : ∀ j ∈ rest, j < 99999 :=
      fun j hj => hbound j (List.mem_cons_of_mem _ hj)
    obtain ⟨hd1, hd2, hd3⟩ := download_one_spec sfx dir dl fname hsfx st0 i
    obtain ⟨hf1, hf2, hf3⟩ :=
      ih (download_one sfx dir dl fname st0 i) hndrest hbrest
    rw [List.foldl_cons]
    refine ⟨?_, ?_, ?_⟩
    · rw [hf1, hd1, List.length_cons]
      omega
    · rw [hf2, hd2, List.any_cons]
      cases hsf : st0.failed <;> cases hjo : jobOk sfx fname dl i <;> simp
    · intro q
      rw [hf3 q, waveGet_cons]
      by_cases hq : q = dir ++ [pageName sfx i]
      · rw [if_pos hq]
        have huntouched : ∀ j ∈ rest, q ≠ dir ++ [pageName sfx j] ∧
            ¬ ((dl j).isSome = true ∧ origOf sfx fname j ≠ sfx ∧
              q = dir ++ [tmpName sfx fname j]) := by
          intro j hj
          have hij : i ≠ j := fun hc => hnotmem (hc ▸ hj)
          constructor
          · rw [hq]
            exact pagePath_ne sfx dir hij
          · rintro ⟨-, horj, htmp⟩
            rw [hq] at htmp
            exact tmpPath_ne_pagePath sfx fname dir hsfx (hbrest j hj) hi horj htmp.symm
        rw [waveGet_untouched sfx fname dl _ dir q rest huntouched]
        rw [hd3 q, if_pos hq]
      · rw [if_neg hq]
        by_cases hc2 : (dl i).isSome = true ∧ origOf sfx fname i ≠ sfx ∧
            q = dir ++ [tmpName sfx fname i]
        · rw [if_pos hc2]
          obtain ⟨hdli, hori, hqtmp⟩ := hc2
          have huntouched : ∀ j ∈ rest, q ≠ dir ++ [pageName sfx j] ∧
              ¬ ((dl j).isSome = true ∧ origOf sfx fname j ≠ sfx ∧
                q = dir ++ [tmpName sfx fname j]) := by
            intro j hj
            have hij : i ≠ j := fun hc => hnotmem (hc ▸ hj)
            constructor
            · rw [hqtmp]
              exact tmpPath_ne_pagePath sfx fname dir hsfx hi (hbrest j hj) hori
            · rintro ⟨-, horj, htmp⟩
              rw [hqtmp] at htmp
              exact hij (tmpPath_inj sfx fname dir hsfx hi (hbrest j hj) htmp)
          rw [waveGet_untouched sfx fname dl _ dir q rest huntouched]
          rw [hd3 q, if_neg hq, if_pos ⟨hdli, hori, hqtmp⟩]
        · rw [if_neg hc2]
          apply waveGet_congr
          · intro j hj
            have hij : i ≠ j := fun hc => hnotmem (hc ▸ hj)
            rw [hd3 (dir ++ [pageName sfx j])]
            rw [if_neg (fun hc => (pagePath_ne sfx dir hij) hc.symm)]
            by_cases hdli : (dl i).isSome = true ∧ origOf sfx fname i ≠ sfx ∧
                dir ++ [pageName sfx j] = dir ++ [tmpName sfx fname i]
            · exact absurd hdli.2.2.symm
                (tmpPath_ne_pagePath sfx fname dir hsfx hi (hbrest j hj) hdli.2.1)
            · rw [if_neg hdli]
          · rw [hd3 q, if_neg hq, if_neg hc2]

/-- Cache HIT: with the file present and caching on, the gate returns the
canonical path, leaves the store alone, and calls no collaborator. -/
theorem ensure_album_cover_hit (sfx : String) (albumId : String)
    (dlCover : Option Bytes) (fs : FS)
    (hex : fsExists fs (coverPath sfx albumId) = true) :
    ensure_album_cover sfx true albumId dlCover fs
      = ⟨fs, some (coverPath sfx albumId), 0⟩ := by
  unfold ensure_album_cover
  simp only [hex]
  rfl

theorem ensure_thumbnail_hit (sfx : String) (albumId : String)
    (dlCover : Option Bytes) (fs : FS)
    (hex : fsExists fs (thumbPath sfx albumId) = true) :
    ensure_thumbnail sfx true albumId dlCover fs
      = ⟨fs, some (thumbPath sfx albumId), 0⟩ := by
  unfold ensure_thumbnail
  simp only [hex]
  rfl

/-- Whenever the cover gate returns a path, it is the canonical cover path
and the file exists in the resulting store. -/
theorem ensure_album_cover_path_some (sfx : String) (cache : Bool) (albumId : String)
    (dlCover : Option Bytes) (fs : FS) (p : FsPath)
    (h : (ensure_album_cover sfx cache albumId dlCover fs).path = some p) :
    p = coverPath sfx albumId ∧
    fsExists (ensure_album_cover sfx cache albumId dlCover fs).fs
      (coverPath sfx albumId) = true := by
  unfold ensure_album_cover at h ⊢
  by_cases hhit : (fsExists fs (coverPath sfx albumId) && cache) = true
  · rw [if_pos hhit] at h ⊢
    simp only [Option.some.injEq] at h
    refine ⟨h.symm, ?_⟩
    rw [Bool.and_eq_true] at hhit
    simp only
    exact hhit.1
  · rw [if_neg hhit] at h ⊢
    by_cases hwebp : strLower sfx = ".webp"
    · rw [if_pos hwebp] at h ⊢
      cases dlCover with
      | none => simp at h
      | some b =>
        simp only [Option.some.injEq] at h
        refine ⟨h.symm, ?_⟩
        simp only [fsExists, fsGet_fsSet, if_pos rfl]
        rfl
    · rw [if_neg hwebp] at h ⊢
      cases dlCover with
      | none => simp at h
      | some b =>
        simp only at h ⊢
        by_cases hok : (convert_to_format ["photos", albumId, "cover.webp"]
            (coverPath sfx albumId)
            (fsSet (if fsExists fs (coverPath sfx albumId) = true
              then fsDel fs (coverPath sfx albumId) else fs)
              ["photos", albumId, "cover.webp"] b)).ok = true
        · rw [if_pos hok] at h
          simp only [Option.some.injEq] at h
          exact ⟨h.symm, convert_ok_target_exists _ _ _ hok⟩
        · rw [if_neg hok] at h
          simp at h

theorem ensure_thumbnail_path_some (sfx : String) (cache : Bool) (albumId : String)
    (dlCover : Option Bytes) (fs : FS) (p : FsPath)
    (h : (ensure_thumbnail sfx cache albumId dlCover fs).path = some p) :
    p = thumbPath sfx albumId ∧
    fsExists (ensure_thumbnail sfx cache albumId dlCover fs).fs
      (thumbPath sfx albumId) = true := by
  unfold ensure_thumbnail at h ⊢
  by_cases hhit : (fsExists fs (thumbPath sfx albumId) && cache) = true
  · rw [if_pos hhit] at h ⊢
    simp only [Option.some.injEq] at h
    refine ⟨h.symm, ?_⟩
    rw [Bool.and_eq_true] at hhit
    simp only
    exact hhit.1
  · rw [if_neg hhit] at h ⊢
    cases dlCover with
    | none => simp at h
    | some b =>
      simp only at h ⊢
      by_cases hok : (convert_to_format
          ["thumbnails", withSuffixName (albumId ++ sfx) ".dl"] (thumbPath sfx albumId)
          (fsSet (if fsExists fs (thumbPath sfx albumId) = true
            then fsDel fs (thumbPath sfx albumId) else fs)
            ["thumbnails", withSuffixName (albumId ++ sfx) ".dl"] b)).ok = true
      · rw [if_pos hok] at h
        simp only [Option.some.injEq] at h
        exact ⟨h.symm, convert_ok_target_exists _ _ _ hok⟩
      · rw [if_neg hok] at h
        simp at h

/-- Download failure in the cover gate: the call raises, the canonical
path holds no file, and nothing else in the store changed. -/
theorem ensure_album_cover_dlfail (sfx : String) (cache : Bool) (albumId : String)
    (fs : FS) (hmiss : ¬ (fsExists fs (coverPath sfx albumId) = true ∧ cache = true)) :
    (ensure_album_cover sfx cache albumId none fs).path = none ∧
    (ensure_album_cover sfx cache albumId none fs).downloads = 1 ∧
    fsGet (ensure_album_cover sfx cache albumId none fs).fs
      (coverPath sfx albumId) = none ∧
    ∀ q, q ≠ coverPath sfx albumId →
      fsGet (ensure_album_cover sfx cache albumId none fs).fs q = fsGet fs q := by
  have hhit : ¬ (fsExists fs (coverPath sfx albumId) && cache) = true := by
    rw [Bool.and_eq_true]
    exact hmiss
  unfold ensure_album_cover
  rw [if_neg hhit]
  have hfs1 : ∀ q, fsGet (if fsExists fs (coverPath sfx albumId) = true
      then fsDel fs (coverPath sfx albumId) else fs) q
      = if q = coverPath sfx albumId then none else fsGet fs q := by
    intro q
    by_cases hex : fsExists fs (coverPath sfx albumId) = true
    · rw [if_pos hex, fsGet_fsDel]
    · rw [if_neg hex]
      by_cases hq : q = coverPath sfx albumId
      · rw [if_pos hq, hq]
        unfold fsExists at hex
        cases hg : fsGet fs (coverPath sfx albumId) with
        | none => rfl
        | some _ => rw [hg] at hex; simp at hex
      · rw [if_neg hq]
  by_cases hwebp : strLower sfx = ".webp"
  · rw [if_pos hwebp]
    exact ⟨rfl, rfl, by rw [hfs1, if_pos rfl],
      fun q hq => by rw [hfs1, if_neg hq]⟩
  · rw [if_neg hwebp]
    exact ⟨rfl, rfl, by rw [hfs1, if_pos rfl],
      fun q hq => by rw [hfs1, if_neg hq]⟩

theorem ensure_thumbnail_dlfail (sfx : String) (cache : Bool) (albumId : String)
    (fs : FS) (hmiss : ¬ (fsExists fs (thumbPath sfx albumId) = true ∧ cache = true)) :
    (ensure_thumbnail sfx cache albumId none fs).path = none ∧
    (ensure_thumbnail sfx cache albumId none fs).downloads = 1 ∧
    fsGet (ensure_thumbnail sfx cache albumId none fs).fs
      (thumbPath sfx albumId) = none ∧
    ∀ q, q ≠ thumbPath sfx albumId →
      fsGet (ensure_thumbnail sfx cache albumId none fs).fs q = fsGet fs q := by
  have hhit : ¬ (fsExists fs (thumbPath sfx albumId) && cache) = true := by
    rw [Bool.and_eq_true]
    exact hmiss
  unfold ensure_thumbnail
  rw [if_neg hhit]
  have hfs1 : ∀ q, fsGet (if fsExists fs (thumbPath sfx albumId) = true
      then fsDel fs (thumbPath sfx albumId) else fs) q
      = if q = thumbPath sfx albumId then none else fsGet fs q := by
    intro q
    by_cases hex : fsExists fs (thumbPath sfx albumId) = true
    · rw [if_pos hex, fsGet_fsDel]
    · rw [if_neg hex]
      by_cases hq : q = thumbPath sfx albumId
      · rw [if_pos hq, hq]
        unfold fsExists at hex
        cases hg : fsGet fs (thumbPath sfx albumId) with
        | none => rfl
        | some _ => rw [hg] at hex; simp at hex
      · rw [if_neg hq]
  exact ⟨rfl, rfl, by rw [hfs1, if_pos rfl],
    fun q hq => by rw [hfs1, if_neg hq]⟩

theorem fsGet_delIfExists (fs : FS) (p q : FsPath) :
    fsGet (if fsExists fs p = true then fsDel fs p else fs) q
      = if q = p then none else fsGet fs q := by
  by_cases hex : fsExists fs p = true
  · rw [if_pos hex, fsGet_fsDel]
  · rw [if_neg hex]
    by_cases hq : q = p
    · rw [if_pos hq, hq]
      unfold fsExists at hex
      cases hg : fsGet fs p with
      | none => rfl
      | some _ => rw [hg] at hex; simp at hex
    · rw [if_neg hq]

/-- Cache disabled: the cover gate deletes any pre-existing canonical
file, always invokes the collaborator once, and the canonical path ends
up holding exactly the outcome of the fresh fetch. -/
theorem ensure_album_cover_nocache (sfx : String) (albumId : String)
    (dlC : Option Bytes) (fs : FS) :
    (ensure_album_cover sfx false albumId dlC fs).downloads = 1 ∧
    fsGet (ensure_album_cover sfx false albumId dlC fs).fs (coverPath sfx albumId)
      = (match dlC with
         | none => none
         | some b =>
            if strLower sfx = ".webp" then some b
            else if b.openable && b.decodable then some (encodeRGB b) else none) := by
  unfold ensure_album_cover
  rw [if_neg (by simp)]
  by_cases hwebp : strLower sfx = ".webp"
  · rw [if_pos hwebp]
    cases dlC with
    | none =>
      refine ⟨rfl, ?_⟩
      simp only
      rw [fsGet_delIfExists, if_pos rfl]
    | some b =>
      refine ⟨rfl, ?_⟩
      simp only
      rw [fsGet_fsSet, if_pos rfl, if_pos hwebp]
  · rw [if_neg hwebp]
    cases dlC with
    | none =>
      refine ⟨rfl, ?_⟩
      simp only
      rw [fsGet_delIfExists, if_pos rfl]
    | some b =>
      have hne : (["photos", albumId, "cover.webp"] : FsPath) ≠ coverPath sfx albumId := by
        intro hc
        have hc2 : (["photos", albumId] : List String) ++ ["cover.webp"]
            = ["photos", albumId] ++ ["cover" ++ sfx] := hc
        have hc3 := dirAppend_inj.mp hc2
        have h4 : ("cover" : String) ++ ".webp" = "cover" ++ sfx := by
          rw [← hc3]
          rfl
        have h5 : (".webp" : String) = sfx := strAppend_left_cancel h4
        rw [← h5] at hwebp
        exact hwebp (by decide)
      refine ⟨rfl, ?_⟩
      simp only
      by_cases hgood : b.openable = true ∧ b.decodable = true
      · rw [convert_set_encode _ _ _ _ hne hgood.1 hgood.2]
        simp only
        rw [fsGet_fsDel, if_neg (fun hc => hne hc.symm), fsGet_fsSet, if_pos rfl]
        rw [if_neg hwebp, if_pos (by rw [hgood.1, hgood.2]; rfl)]
      · rw [convert_set_fail _ _ _ _ hne hgood]
        simp only
        rw [fsGet_fsDel, if_neg (fun hc => hne hc.symm), fsGet_delIfExists, if_pos rfl]
        rw [if_neg hwebp, if_neg (by
          intro hc
          rcases Bool.and_eq_true _ _ ▸ hc with ⟨h1, h2⟩
          exact hgood ⟨h1, h2⟩)]

/-- Cache disabled: the thumbnail gate deletes any pre-existing canonical
file, always invokes the collaborator once, and the canonical path ends
up holding exactly the outcome of the fresh fetch. -/
theorem ensure_thumbnail_nocache (sfx : String) (albumId : String)
    (dlC : Option Bytes) (fs : FS) (hsfx : SuffixOK sfx) (ha : albumId ≠ "")
    (hdl : sfx ≠ ".dl") :
    (ensure_thumbnail sfx false albumId dlC fs).downloads = 1 ∧
    fsGet (ensure_thumbnail sfx false albumId dlC fs).fs (thumbPath sfx albumId)
      = (match dlC with
         | none => none
         | some b =>
            if b.openable && b.decodable then some (encodeRGB b) else none) := by
  unfold ensure_thumbnail
  rw [if_neg (by simp)]
  cases dlC with
  | none =>
    refine ⟨rfl, ?_⟩
    simp only
    rw [fsGet_delIfExists, if_pos rfl]
  | some b =>
    have htmp : withSuffixName (albumId ++ sfx) ".dl" = albumId ++ ".dl" :=
      withSuffixName_append albumId sfx ".dl" ha hsfx
    have hne : (["thumbnails", withSuffixName (albumId ++ sfx) ".dl"] : FsPath)
        ≠ thumbPath sfx albumId := by
      rw [htmp]
      intro hc
      have hc2 : (["thumbnails"] : List String) ++ [albumId ++ ".dl"]
          = ["thumbnails"] ++ [albumId ++ sfx] := hc
      have h2 := dirAppend_inj.mp hc2
      exact hdl (strAppend_left_cancel h2).symm
    refine ⟨rfl, ?_⟩
    simp only
    by_cases hgood : b.openable = true ∧ b.decodable = true
    · rw [convert_set_encode _ _ _ _ hne hgood.1 hgood.2]
      simp only
      rw [fsGet_fsDel, if_neg (fun hc => hne hc.symm), fsGet_fsSet, if_pos rfl]
      rw [if_pos (by rw [hgood.1, hgood.2]; rfl)]
    · rw [convert_set_fail _ _ _ _ hne hgood]
      simp only
      rw [fsGet_fsDel, if_neg (fun hc => hne hc.symm), fsGet_delIfExists, if_pos rfl]
      rw [if_neg (by
        intro hc
        rcases Bool.and_eq_true _ _ ▸ hc with ⟨h1, h2⟩
        exact hgood ⟨h1, h2⟩)]

/-! ## Artifact identities and the resolver (claim C5) -/

inductive ArtifactIdentity where
  | cover (albumId : String)
  | thumb (albumId : String)
  | page (albumId photoId : String) (pageIdx : Nat)
deriving DecidableEq

/-- The path resolver: cover, thumbnail and page locations as produced by
`get_album_cover_path`, `ensure_thumbnail` and `ensure_photo_images`
(`pageIdx` is the 0-based index; the stored name uses `pageIdx + 1`). -/
def resolve (sfx : String) : ArtifactIdentity → FsPath
  | .cover a => coverPath sfx a
  | .thumb a => thumbPath sfx a
  | .page a p i => photoDir a p ++ [pageName sfx i]

/-- Caller-side id validation: non-empty and free of path separators,
as guaranteed for HTTP path parameters. -/
def ValidId (s : String) : Prop := s ≠ "" ∧ '/' ∉ s.data

def ValidIdent : ArtifactIdentity → Prop
  | .cover a => ValidId a
  | .thumb a => ValidId a
  | .page a p _ => ValidId a ∧ ValidId p

instance (s : String) : Decidable (ValidId s) := by
  unfold ValidId
  infer_instance

instance (i : ArtifactIdentity) : Decidable (ValidIdent i) := by
  cases i <;> (unfold ValidIdent; infer_instance)

theorem strAppend_right_cancel {x y s : String} (h : x ++ s = y ++ s) : x = y := by
  have hd := congrArg String.data h
  rw [String.data_append, String.data_append] at hd
  exact String.ext (List.append_cancel_right hd)

/-- Claim C5: the path resolver is a pure function of the artifact
identity and is injective: distinct (caller-validated) identities never
resolve to the same filesystem path.  Determinism is intrinsic
(`resolve` is a function); this theorem is the injectivity. -/
theorem c5_resolve_injective (sfx : String) (id1 id2 : ArtifactIdentity)
    (h1 : ValidIdent id1) (h2 : ValidIdent id2)
    (heq : resolve sfx id1 = resolve sfx id2) : id1 = id2 := by
  cases id1 with
  | cover a1 =>
    cases id2 with
    | cover a2 =>
      simp only [resolve, coverPath, List.cons.injEq, and_true] at heq
      rw [heq.2]
    | thumb a2 => simp [resolve, coverPath, thumbPath] at heq
    | page a2 p2 i2 => simp [resolve, coverPath, photoDir] at heq
  | thumb a1 =>
    cases id2 with
    | cover a2 => simp [resolve, coverPath, thumbPath] at heq
    | thumb a2 =>
      simp only [resolve, thumbPath, List.cons.injEq, and_true] at heq
      rw [strAppend_right_cancel heq.2]
    | page a2 p2 i2 => simp [resolve, thumbPath, photoDir] at heq
  | page a1 p1 i1 =>
    cases id2 with
    | cover a2 => simp [resolve, coverPath, photoDir] at heq
    | thumb a2 => simp [resolve, thumbPath, photoDir] at heq
    | page a2 p2 i2 =>
      simp only [resolve, photoDir, List.cons_append, List.nil_append,
        List.cons.injEq, and_true] at heq
      obtain ⟨-, ha, hp, hn⟩ := heq
      rw [ha, hp, pageName_injective sfx hn]

theorem c5_witness : (ArtifactIdentity.cover "1") = ArtifactIdentity.cover "1" :=
  c5_resolve_injective ".jpg" (ArtifactIdentity.cover "1") (ArtifactIdentity.cover "1")
    (by decide) (by decide) rfl

/-- Claim C2 (counterexample): source and target are the identical path
with identical suffix, but the stored bytes are unreadable by
`Image.open`; the call raises (`ok = false`) instead of returning as a
no-op, because `convert_to_format` opens the file before the same-path
early return (`opened = true`). -/
theorem c2_counterexample :
    (convert_to_format ["photos", "1", "00001.jpg"] ["photos", "1", "00001.jpg"]
        [(["photos", "1", "00001.jpg"], Bytes.bad 0)]).ok = false ∧
    (convert_to_format ["photos", "1", "00001.jpg"] ["photos", "1", "00001.jpg"]
        [(["photos", "1", "00001.jpg"], Bytes.bad 0)]).opened = true := by
  decide

/-- Claim C2 (amended): when source and target denote the identical path
(hence identical suffix), the call performs no decode/re-encode and leaves
the store byte-for-byte unchanged and returns successfully — provided the
existing file is present and `Image.open` accepts it, since the file is
opened before the early return. -/
theorem c2_amended (p : FsPath) (fs : FS) (b : Bytes)
    (hget : fsGet fs p = some b) (hop : b.openable = true) :
    (convert_to_format p p fs).ok = true ∧
    (convert_to_format p p fs).fs = fs ∧
    (convert_to_format p p fs).encoded = false ∧
    (convert_to_format p p fs).opened = true := by
  have hclean : convertCleanup p p fs = fs := by
    unfold convertCleanup
    rw [if_neg (fun hc => hc.2 rfl)]
  unfold convert_to_format
  rw [hget]
  simp only
  rw [if_pos hop, if_pos (by simp), hclean]
  exact ⟨rfl, rfl, rfl, rfl⟩

theorem c2_amended_witness :
    (convert_to_format ["photos", "1", "00001.jpg"] ["photos", "1", "00001.jpg"]
        [(["photos", "1", "00001.jpg"], Bytes.raw 7)]).ok = true ∧
    (convert_to_format ["photos", "1", "00001.jpg"] ["photos", "1", "00001.jpg"]
        [(["photos", "1", "00001.jpg"], Bytes.raw 7)]).fs
      = [(["photos", "1", "00001.jpg"], Bytes.raw 7)] ∧
    (convert_to_format ["photos", "1", "00001.jpg"] ["photos", "1", "00001.jpg"]
        [(["photos", "1", "00001.jpg"], Bytes.raw 7)]).encoded = false ∧
    (convert_to_format ["photos", "1", "00001.jpg"] ["photos", "1", "00001.jpg"]
        [(["photos", "1", "00001.jpg"], Bytes.raw 7)]).opened = true :=
  c2_amended ["photos", "1", "00001.jpg"] [(["photos", "1", "00001.jpg"], Bytes.raw 7)]
    (Bytes.raw 7) (by decide) (by decide)

/-- Claim C3: a failed normalization (decode or open error) leaves the
target canonical path exactly as it was: no partial or corrupt file ever
appears there — if no file existed, none exists afterwards; an existing
complete file is untouched. -/
theorem c3_no_partial_target (source target : FsPath) (fs : FS)
    (h : (convert_to_format source target fs).ok = false) :
    fsGet (convert_to_format source target fs).fs target = fsGet fs target :=
  convert_failed_target_unchanged source target fs h

theorem c3_witness :
    (convert_to_format ["a.png"] ["b.jpg"] [(["a.png"], Bytes.bad 3)]).ok = false ∧
    fsGet (convert_to_format ["a.png"] ["b.jpg"] [(["a.png"], Bytes.bad 3)]).fs ["b.jpg"]
      = fsGet [(["a.png"], Bytes.bad 3)] ["b.jpg"] :=
  ⟨by decide, c3_no_partial_target ["a.png"] ["b.jpg"] [(["a.png"], Bytes.bad 3)]
    (by decide)⟩

/-- Claim C9: acquisitions leave no orphaned temporaries: the normalizer
deletes a source differing from the target on success and failure alike,
and a download failure in a single-artifact fetch (thumbnail or cover)
raises while creating no file at the canonical path and touching nothing
else in the store. -/
theorem c9_no_orphan_temp (source target : FsPath) (fs : FS)
    (sfx : String) (cache : Bool) (albumId : String) (fs2 fs3 : FS)
    (hne : source ≠ target)
    (hmiss2 : ¬ (fsExists fs2 (thumbPath sfx albumId) = true ∧ cache = true))
    (hmiss3 : ¬ (fsExists fs3 (coverPath sfx albumId) = true ∧ cache = true)) :
    fsGet (convert_to_format source target fs).fs source = none ∧
    ((ensure_thumbnail sfx cache albumId none fs2).path = none ∧
      fsGet (ensure_thumbnail sfx cache albumId none fs2).fs
        (thumbPath sfx albumId) = none ∧
      ∀ q, q ≠ thumbPath sfx albumId →
        fsGet (ensure_thumbnail sfx cache albumId none fs2).fs q = fsGet fs2 q) ∧
    ((ensure_album_cover sfx cache albumId none fs3).path = none ∧
      fsGet (ensure_album_cover sfx cache albumId none fs3).fs
        (coverPath sfx albumId) = none ∧
      ∀ q, q ≠ coverPath sfx albumId →
        fsGet (ensure_album_cover sfx cache albumId none fs3).fs q = fsGet fs3 q) := by
  refine ⟨convert_source_removed source target fs hne, ?_, ?_⟩
  · obtain ⟨h1, -, h3, h4⟩ := ensure_thumbnail_dlfail sfx cache albumId fs2 hmiss2
    exact ⟨h1, h3, h4⟩
  · obtain ⟨h1, -, h3, h4⟩ := ensure_album_cover_dlfail sfx cache albumId fs3 hmiss3
    exact ⟨h1, h3, h4⟩

theorem c9_witness :
    fsGet (convert_to_format ["a.png"] ["b.jpg"]
      [(["a.png"], Bytes.raw 1)]).fs ["a.png"] = none ∧
    (ensure_thumbnail ".jpg" true "9" none []).path = none ∧
    (ensure_album_cover ".jpg" true "9" none []).path = none := by
  have h := c9_no_orphan_temp ["a.png"] ["b.jpg"] [(["a.png"], Bytes.raw 1)]
    ".jpg" true "9" [] [] (by decide) (by decide) (by decide)
  exact ⟨h.1, h.2.1.1, h.2.2.1⟩

/-- Claim C10: for a page whose remote filename suffix equals the
configured canonical suffix, the download temp path equals the canonical
target path, and the raw downloaded bytes are committed there as-is: no
decode and no fixed-quality re-encode happens for such a page. -/
theorem c10_same_suffix_raw_commit (sfx : String) (dir : List String)
    (dl : Nat → Option Bytes) (fname : Nat → String) (st : WaveState) (i : Nat)
    (b : Bytes) (hsfx : SuffixOK sfx) (hsrc : nameSuffix (fname i) = sfx)
    (hdl : dl i = some b) :
    tmpName sfx fname i = pageName sfx i ∧
    fsGet (download_one sfx dir dl fname st i).fs (dir ++ [pageName sfx i]) = some b ∧
    (convert_to_format (dir ++ [tmpName sfx fname i]) (dir ++ [pageName sfx i])
      (fsSet st.fs (dir ++ [tmpName sfx fname i]) b)).encoded = false := by
  have horig : origOf sfx fname i = sfx := by
    unfold origOf
    rw [hsrc]
    exact ite_self sfx
  have htn : tmpName sfx fname i = pageName sfx i :=
    (tmpName_eq_pageName_iff sfx fname i hsfx).mpr horig
  refine ⟨htn, ?_, ?_⟩
  · unfold download_one
    rw [hdl]
    simp only [htn]
    rw [convert_self_set]
    simp only
    rw [fsGet_fsSet, if_pos rfl]
  · rw [htn, convert_self_set]

theorem c10_witness :
    tmpName ".jpg" (fun _ => "x.jpg") 0 = pageName ".jpg" 0 ∧
    fsGet (download_one ".jpg" ["photos", "1", "2"] (fun _ => some (Bytes.raw 5))
      (fun _ => "x.jpg") ⟨[], false, 0⟩ 0).fs
      (["photos", "1", "2"] ++ [pageName ".jpg" 0]) = some (Bytes.raw 5) ∧
    (convert_to_format (["photos", "1", "2"] ++ [tmpName ".jpg" (fun _ => "x.jpg") 0])
      (["photos", "1", "2"] ++ [pageName ".jpg" 0])
      (fsSet [] (["photos", "1", "2"] ++ [tmpName ".jpg" (fun _ => "x.jpg") 0])
        (Bytes.raw 5))).encoded = false :=
  c10_same_suffix_raw_commit ".jpg" ["photos", "1", "2"] (fun _ => some (Bytes.raw 5))
    (fun _ => "x.jpg") ⟨[], false, 0⟩ 0 (Bytes.raw 5) (by decide) (by decide) rfl

/-- Claim C4 (code-bug evaluation): with configured canonical suffix
".png", a successful thumbnail fetch for album "123" stores
`thumbnails/123.png`, but `delete_album_thumbnail` unlinks the hardcoded
`thumbnails/123.jpg`, returns `removed = false`, and the stored thumbnail
survives — the create-then-delete round trip claimed by C4 fails for any
configured suffix other than ".jpg". -/
theorem c4_code_bug_eval :
    (ensure_thumbnail ".png" true "123" (some (Bytes.raw 0)) []).path
      = some (thumbPath ".png" "123") ∧
    (delete_album_thumbnail "123"
      (ensure_thumbnail ".png" true "123" (some (Bytes.raw 0)) []).fs).2 = false ∧
    fsExists (delete_album_thumbnail "123"
      (ensure_thumbnail ".png" true "123" (some (Bytes.raw 0)) []).fs).1
      (thumbPath ".png" "123") = true := by
  decide

theorem fsGet_foldDel (dir : List String) :
    ∀ (L : List String) (fs : FS) (q : FsPath),
    fsGet (L.foldl (fun a m => fsDel a (dir ++ [m])) fs) q
      = if ∃ m ∈ L, q = dir ++ [m] then none else fsGet fs q := by
  intro L
  induction L with
  | nil =>
    intro fs q
    rw [if_neg (by simp)]
    rfl
  | cons m rest ih =>
    intro fs q
    rw [List.foldl_cons, ih]
    by_cases h1 : ∃ k ∈ rest, q = dir ++ [k]
    · rw [if_pos h1, if_pos]
      obtain ⟨k, hk, hq⟩ := h1
      exact ⟨k, List.mem_cons_of_mem _ hk, hq⟩
    · rw [if_neg h1, fsGet_fsDel]
      by_cases h2 : q = dir ++ [m]
      · rw [if_pos h2, if_pos ⟨m, List.mem_cons_self _ _, h2⟩]
      · rw [if_neg h2, if_neg (by
          rintro ⟨k, hk, hq⟩
          rcases List.mem_cons.mp hk with rfl | hk2
          · exact h2 hq
          · exact h1 ⟨k, hk2, hq⟩)]

theorem waveGet_none (sfx : String) (fname : Nat → String) (dl : Nat → Option Bytes)
    (fs0 : FS) (dir : List String) (q : FsPath) :
    ∀ L : List Nat, (∀ i ∈ L, q ≠ dir ++ [pageName sfx i]) →
    fsGet fs0 q = none → waveGet sfx fname dl fs0 dir q L = none := by
  intro L
  induction L with
  | nil => intro _ h0; exact h0
  | cons i rest ih =>
    intro ht h0
    rw [waveGet_cons, if_neg (ht i (List.mem_cons_self _ _))]
    by_cases h2 : (dl i).isSome = true ∧ origOf sfx fname i ≠ sfx ∧
        q = dir ++ [tmpName sfx fname i]
    · rw [if_pos h2]
    · rw [if_neg h2]
      exact ih (fun k hk => ht k (List.mem_cons_of_mem _ hk)) h0

/-- Claim C6: with caching enabled, a repeat fetch after success is a pure
HIT: (1) a second cover fetch performs zero collaborator invocations and
returns the same path with the store untouched; (2) likewise for the
thumbnail fetch; (3) `ensure_photo_images` on an already-fully-cached set
(nonzero expected count ≤ number of existing canonical files)
short-circuits with zero downloads and returns the existing sorted set. -/
theorem c6_cached_idempotence (sfx : String) (albumId albumId2 : String)
    (dlC dlC2 dlT dlT2 : Option Bytes) (fs fsT : FS) (p pT : FsPath)
    (albumId3 photoId3 : String) (total : Nat) (dl3 : Nat → Option Bytes)
    (fname3 : Nat → String) (fs3 : FS) :
    ((ensure_album_cover sfx true albumId dlC fs).path = some p →
      ensure_album_cover sfx true albumId dlC2
          (ensure_album_cover sfx true albumId dlC fs).fs
        = ⟨(ensure_album_cover sfx true albumId dlC fs).fs, some p, 0⟩) ∧
    ((ensure_thumbnail sfx true albumId2 dlT fsT).path = some pT →
      ensure_thumbnail sfx true albumId2 dlT2
          (ensure_thumbnail sfx true albumId2 dlT fsT).fs
        = ⟨(ensure_thumbnail sfx true albumId2 dlT fsT).fs, some pT, 0⟩) ∧
    (0 < total → total ≤ (globNames fs3 (photoDir albumId3 photoId3) sfx).length →
      ensure_photo_images sfx true albumId3 photoId3 total dl3 fname3 fs3
        = ⟨fs3, some ((globNames fs3 (photoDir albumId3 photoId3) sfx).map
            (fun n => photoDir albumId3 photoId3 ++ [n])), 0⟩) := by
  refine ⟨?_, ?_, ?_⟩
  · intro h
    obtain ⟨hp, hex⟩ := ensure_album_cover_path_some sfx true albumId dlC fs p h
    rw [hp, ensure_album_cover_hit sfx albumId dlC2 _ hex]
  · intro h
    obtain ⟨hp, hex⟩ := ensure_thumbnail_path_some sfx true albumId2 dlT fsT pT h
    rw [hp, ensure_thumbnail_hit sfx albumId2 dlT2 _ hex]
  · intro h0 hlen
    unfold ensure_photo_images
    rw [if_pos (by
      simp only [Bool.true_and]
      rw [Bool.and_eq_true]
      exact ⟨decide_eq_true h0, decide_eq_true hlen⟩)]
    rw [if_pos rfl, if_pos rfl]

theorem c6_witness :
    (ensure_album_cover ".jpg" true "1" none
        (ensure_album_cover ".jpg" true "1" (some (Bytes.raw 0)) []).fs
      = ⟨(ensure_album_cover ".jpg" true "1" (some (Bytes.raw 0)) []).fs,
          some (coverPath ".jpg" "1"), 0⟩) ∧
    (ensure_thumbnail ".jpg" true "2" none
        (ensure_thumbnail ".jpg" true "2" (some (Bytes.raw 1)) []).fs
      = ⟨(ensure_thumbnail ".jpg" true "2" (some (Bytes.raw 1)) []).fs,
          some (thumbPath ".jpg" "2"), 0⟩) ∧
    (ensure_photo_images ".jpg" true "3" "4" 1 (fun _ => none) (fun _ => "")
        [(photoDir "3" "4" ++ [pageName ".jpg" 0], Bytes.jpegEncoded 0)]
      = ⟨[(photoDir "3" "4" ++ [pageName ".jpg" 0], Bytes.jpegEncoded 0)],
          some ((globNames [(photoDir "3" "4" ++ [pageName ".jpg" 0],
              Bytes.jpegEncoded 0)] (photoDir "3" "4") ".jpg").map
            (fun n => photoDir "3" "4" ++ [n])), 0⟩) := by
  have h := c6_cached_idempotence ".jpg" "1" "2" (some (Bytes.raw 0)) none
    (some (Bytes.raw 1)) none [] [] (coverPath ".jpg" "1") (thumbPath ".jpg" "2")
    "3" "4" 1 (fun _ => none) (fun _ => "")
    [(photoDir "3" "4" ++ [pageName ".jpg" 0], Bytes.jpegEncoded 0)]
  exact ⟨h.1 (by decide), h.2.1 (by decide), h.2.2 (by decide) (by decide)⟩

/-- Claim C8: with caching disabled every fetch deletes any pre-existing
canonical file(s) and re-fetches from the collaborator regardless of prior
state: the cover and thumbnail gates always perform exactly one download
and the canonical path afterwards holds exactly the outcome of the fresh
fetch (in particular, never the old bytes); the artifact-set orchestrator
treats the existing set as empty, dispatching the full index range (one
download per index) and leaving no stale canonical-suffix file behind. -/
theorem c8_cache_disabled_refetch (sfx albumId albumId2 : String)
    (dlC dlT : Option Bytes) (fs fsT : FS)
    (albumId3 photoId3 : String) (total : Nat) (dl3 : Nat → Option Bytes)
    (fname3 : Nat → String) (fs3 : FS)
    (hsfx : SuffixOK sfx) (ha2 : albumId2 ≠ "") (hdl : sfx ≠ ".dl")
    (htot : total ≤ 99999) :
    ((ensure_album_cover sfx false albumId dlC fs).downloads = 1 ∧
      fsGet (ensure_album_cover sfx false albumId dlC fs).fs (coverPath sfx albumId)
        = (match dlC with
           | none => none
           | some b =>
              if strLower sfx = ".webp" then some b
              else if b.openable && b.decodable then some (encodeRGB b) else none)) ∧
    ((ensure_thumbnail sfx false albumId2 dlT fsT).downloads = 1 ∧
      fsGet (ensure_thumbnail sfx false albumId2 dlT fsT).fs (thumbPath sfx albumId2)
        = (match dlT with
           | none => none
           | some b =>
              if b.openable && b.decodable then some (encodeRGB b) else none)) ∧
    (ensure_photo_images sfx false albumId3 photoId3 total dl3 fname3 fs3).downloads
        = total ∧
    (∀ n, strEndsWith n sfx = true → (∀ i, i < total → n ≠ pageName sfx i) →
      fsGet (ensure_photo_images sfx false albumId3 photoId3 total dl3 fname3 fs3).fs
        (photoDir albumId3 photoId3 ++ [n]) = none) := by
  have hbound : ∀ i ∈ List.range total, i < 99999 := by
    intro i hi
    have := List.mem_range.mp hi
    omega
  obtain ⟨hw1, hw2, hw3⟩ := wave_fold_spec sfx (photoDir albumId3 photoId3) dl3 fname3
    hsfx (List.range total)
    ⟨(globNames fs3 (photoDir albumId3 photoId3) sfx).foldl
      (fun a n => fsDel a (photoDir albumId3 photoId3 ++ [n])) fs3, false, 0⟩
    (List.nodup_range total) hbound
  have hfs1 : ∀ n, strEndsWith n sfx = true →
      fsGet ((globNames fs3 (photoDir albumId3 photoId3) sfx).foldl
        (fun a n => fsDel a (photoDir albumId3 photoId3 ++ [n])) fs3)
        (photoDir albumId3 photoId3 ++ [n]) = none := by
    intro n hends
    rw [fsGet_foldDel]
    by_cases hmem : ∃ m ∈ globNames fs3 (photoDir albumId3 photoId3) sfx,
        photoDir albumId3 photoId3 ++ [n] = photoDir albumId3 photoId3 ++ [m]
    · rw [if_pos hmem]
    · rw [if_neg hmem]
      by_cases hex : fsExists fs3 (photoDir albumId3 photoId3 ++ [n]) = true
      · exact absurd ⟨n, mem_globNames.mpr ⟨hex, hends⟩, rfl⟩ hmem
      · unfold fsExists at hex
        cases hg : fsGet fs3 (photoDir albumId3 photoId3 ++ [n]) with
        | none => rfl
        | some _ => rw [hg] at hex; simp at hex
  have hmain : (ensure_photo_images sfx false albumId3 photoId3 total dl3 fname3
        fs3).downloads = total ∧
      (∀ n, strEndsWith n sfx = true → (∀ i, i < total → n ≠ pageName sfx i) →
        fsGet (ensure_photo_images sfx false albumId3 photoId3 total dl3 fname3
          fs3).fs (photoDir albumId3 photoId3 ++ [n]) = none) := by
    unfold ensure_photo_images
    rw [if_neg (by simp)]
    simp only [Bool.false_eq_true, if_false]
    constructor
    · rw [hw1, List.length_range]
      simp
    · intro n hends hnc
      rw [hw3]
      apply waveGet_none
      · intro i hi hq
        exact hnc i (List.mem_range.mp hi) (dirAppend_inj.mp hq)
      · exact hfs1 n hends
  exact ⟨ensure_album_cover_nocache sfx albumId dlC fs,
    ensure_thumbnail_nocache sfx albumId2 dlT fsT hsfx ha2 hdl, hmain.1, hmain.2⟩

theorem c8_witness :
    (ensure_album_cover ".jpg" false "1" (some (Bytes.raw 0)) []).downloads = 1 ∧
    (ensure_thumbnail ".jpg" false "2" (some (Bytes.raw 1)) []).downloads = 1 ∧
    (ensure_photo_images ".jpg" false "3" "4" 2 (fun i => some (Bytes.raw i))
      (fun _ => "") []).downloads = 2 := by
  have h := c8_cache_disabled_refetch ".jpg" "1" "2" (some (Bytes.raw 0))
    (some (Bytes.raw 1)) [] [] "3" "4" 2 (fun i => some (Bytes.raw i))
    (fun _ => "") [] (by decide) (by decide) (by decide) (by omega)
  exact ⟨h.1.1, h.2.1.1, h.2.2.1⟩

theorem nodup_convertCleanup {fs : FS} (h : FSNodup fs) (s t : FsPath) :
    FSNodup (convertCleanup s t fs) := by
  unfold convertCleanup
  by_cases hc : fsExists fs s = true ∧ s ≠ t
  · rw [if_pos hc]
    exact fsNodup_fsDel h s
  · rw [if_neg hc]
    exact h

theorem nodup_convert_fs {fs : FS} (h : FSNodup fs) (s t : FsPath) :
    FSNodup (convert_to_format s t fs).fs := by
  unfold convert_to_format
  cases hg : fsGet fs s with
  | none => exact h
  | some b =>
    simp only
    by_cases hop : b.openable = true
    · rw [if_pos hop]
      by_cases hsame : strLower (nameSuffix (lastName s))
          = strLower (nameSuffix (lastName t)) ∧ s = t
      · rw [if_pos hsame]
        exact nodup_convertCleanup h s t
      · rw [if_neg hsame]
        by_cases hdec : b.decodable = true
        · rw [if_pos hdec]
          exact nodup_convertCleanup (fsNodup_fsSet h t (encodeRGB b)) s t
        · rw [if_neg hdec]
          exact nodup_convertCleanup h s t
    · rw [if_neg hop]
      exact nodup_convertCleanup h s t

theorem nodup_download_one (sfx : String) (dir : List String) (dl : Nat → Option Bytes)
    (fname : Nat → String) {st : WaveState} (h : FSNodup st.fs) (i : Nat) :
    FSNodup (download_one sfx dir dl fname st i).fs := by
  unfold download_one
  cases dl i with
  | none => exact h
  | some b =>
    simp only
    exact nodup_convert_fs (fsNodup_fsSet h _ b) _ _

theorem nodup_wave (sfx : String) (dir : List String) (dl : Nat → Option Bytes)
    (fname : Nat → String) :
    ∀ (L : List Nat) (st0 : WaveState), FSNodup st0.fs →
    FSNodup ((L.foldl (download_one sfx dir dl fname) st0).fs) := by
  intro L
  induction L with
  | nil => intro st0 h; exact h
  | cons i rest ih =>
    intro st0 h
    rw [List.foldl_cons]
    exact ih _ (nodup_download_one sfx dir dl fname h i)

theorem nodup_foldDel (dir : List String) :
    ∀ (L : List String) {fs : FS}, FSNodup fs →
    FSNodup (L.foldl (fun a n => fsDel a (dir ++ [n])) fs) := by
  intro L
  induction L with
  | nil => intro fs h; exact h
  | cons n rest ih =>
    intro fs h
    rw [List.foldl_cons]
    exact ih (fsNodup_fsDel h _)

theorem jobOk_raw (sfx : String) (fname : Nat → String) (dl : Nat → Option Bytes)
    {i k : Nat} (hdl : dl i = some (Bytes.raw k)) :
    jobOk sfx fname dl i = true := by
  unfold jobOk
  rw [hdl]
  simp only
  by_cases h : origOf sfx fname i = sfx
  · rw [if_pos h]
    rfl
  · rw [if_neg h]
    rfl

theorem targetVal_isSome_raw (sfx : String) (fname : Nat → String)
    (dl : Nat → Option Bytes) (fs0 : FS) (dir : List String) {i k : Nat}
    (hdl : dl i = some (Bytes.raw k)) :
    (targetVal sfx fname dl fs0 dir i).isSome = true := by
  unfold targetVal
  rw [hdl]
  simp only
  by_cases h : origOf sfx fname i = sfx
  · rw [if_pos h]
    rfl
  · rw [if_neg h]
    simp [Bytes.openable, Bytes.decodable]

/-- A page's canonical file after the wave holds its job's outcome, for
any dispatched index. -/
theorem waveGet_target (sfx : String) (fname : Nat → String)
    (dl : Nat → Option Bytes) (fs0 : FS) (dir : List String) (hsfx : SuffixOK sfx)
    {i : Nat} (hi99 : i < 99999) :
    ∀ L : List Nat, (∀ j ∈ L, j < 99999) → i ∈ L →
    waveGet sfx fname dl fs0 dir (dir ++ [pageName sfx i]) L
      = targetVal sfx fname dl fs0 dir i := by
  intro L
  induction L with
  | nil => intro _ hmem; simp at hmem
  | cons j rest ih =>
    intro hb hmem
    rw [waveGet_cons]
    by_cases hij : i = j
    · subst hij
      rw [if_pos rfl]
    · rw [if_neg (fun hc => hij (pageName_injective sfx (dirAppend_inj.mp hc)))]
      rw [if_neg (by
        rintro ⟨-, horj, hc⟩
        exact tmpPath_ne_pagePath sfx fname dir hsfx
          (hb j (List.mem_cons_self _ _)) hi99 horj hc.symm)]
      refine ih (fun k hk => hb k (List.mem_cons_of_mem _ hk)) ?_
      rcases List.mem_cons.mp hmem with hc | hc
      · exact absurd hc hij
      · exact hc

/-- After a wave, any path holds either its pre-wave contents, nothing, or
the target of some dispatched index. -/
theorem waveGet_cases (sfx : String) (fname : Nat → String)
    (dl : Nat → Option Bytes) (fs0 : FS) (dir : List String) (q : FsPath) :
    ∀ L : List Nat,
    waveGet sfx fname dl fs0 dir q L = fsGet fs0 q ∨
    waveGet sfx fname dl fs0 dir q L = none ∨
    ∃ i ∈ L, q = dir ++ [pageName sfx i] := by
  intro L
  induction L with
  | nil => left; rfl
  | cons j rest ih =>
    rw [waveGet_cons]
    by_cases h1 : q = dir ++ [pageName sfx j]
    · right; right
      exact ⟨j, List.mem_cons_self _ _, h1⟩
    · rw [if_neg h1]
      by_cases h2 : (dl j).isSome = true ∧ origOf sfx fname j ≠ sfx ∧
          q = dir ++ [tmpName sfx fname j]
      · rw [if_pos h2]
        right; left; rfl
      · rw [if_neg h2]
        rcases ih with h | h | ⟨i, hi, hq⟩
        · left; exact h
        · right; left; exact h
        · right; right; exact ⟨i, List.mem_cons_of_mem _ hi, hq⟩

/-- A store whose directory listing is exactly the canonical page set has
`globNames` equal to the numerically ordered page names. -/
theorem globNames_eq_pageNames {fs : FS} {dir : List String} {sfx : String} {K : Nat}
    (hnd : FSNodup fs) (hK : K ≤ 99999)
    (hmem : ∀ n, (fsExists fs (dir ++ [n]) = true ∧ strEndsWith n sfx = true) ↔
      (∃ i, i < K ∧ n = pageName sfx i)) :
    globNames fs dir sfx = (List.range K).map (pageName sfx) := by
  refine List.eq_of_perm_of_sorted ?_ (sorted_globNames fs dir sfx)
    (sorted_pageNames sfx K hK)
  rw [List.perm_ext_iff_of_nodup (nodup_globNames hnd dir sfx) (nodup_pageNames sfx K)]
  intro n
  rw [mem_globNames, hmem, List.mem_map]
  constructor
  · rintro ⟨i, hi, rfl⟩
    exact ⟨i, List.mem_range.mpr hi, rfl⟩
  · rintro ⟨i, hi, rfl⟩
    exact ⟨i, List.mem_range.mp hi, rfl⟩

/-- Pigeonhole for the fast path: a listing of canonical page names of
length at least `K` is the whole canonical set. -/
theorem globNames_full {fs : FS} {dir : List String} {sfx : String} {K : Nat}
    (hnd : FSNodup fs) (hK : K ≤ 99999)
    (hsub : ∀ n ∈ globNames fs dir sfx, ∃ i, i < K ∧ n = pageName sfx i)
    (hlen : K ≤ (globNames fs dir sfx).length) :
    globNames fs dir sfx = (List.range K).map (pageName sfx) := by
  have hsubset : globNames fs dir sfx ⊆ (List.range K).map (pageName sfx) := by
    intro n hn
    obtain ⟨i, hi, rfl⟩ := hsub n hn
    exact List.mem_map.mpr ⟨i, List.mem_range.mpr hi, rfl⟩
  have hsp := List.subperm_of_subset (nodup_globNames hnd dir sfx) hsubset
  have hperm := hsp.perm_of_length_le (by
    rw [List.length_map, List.length_range]
    exact hlen)
  exact List.eq_of_perm_of_sorted hperm (sorted_globNames fs dir sfx)
    (sorted_pageNames sfx K hK)

theorem fsExists_eq_isSome (fs : FS) (q : FsPath) :
    fsExists fs q = (fsGet fs q).isSome := rfl

theorem fsGet_clean_dir (fs : FS) (dir : List String) (sfx n : String)
    (hends : strEndsWith n sfx = true) :
    fsGet ((globNames fs dir sfx).foldl (fun a m => fsDel a (dir ++ [m])) fs)
      (dir ++ [n]) = none := by
  rw [fsGet_foldDel]
  by_cases hmem : ∃ m ∈ globNames fs dir sfx, dir ++ [n] = dir ++ [m]
  · rw [if_pos hmem]
  · rw [if_neg hmem]
    by_cases hex : fsExists fs (dir ++ [n]) = true
    · exact absurd ⟨n, mem_globNames.mpr ⟨hex, hends⟩, rfl⟩ hmem
    · unfold fsExists at hex
      cases hg : fsGet fs (dir ++ [n]) with
      | none => rfl
      | some _ => rw [hg] at hex; simp at hex

/-- Fetch-set completeness under success: with a collaborator delivering
decodable bytes for every index and a directory containing only canonical
page files of the photo, `ensure_photo_images` returns exactly the `total`
canonical page paths in numeric order, with or without caching. -/
theorem ensure_photo_images_complete (sfx : String) (cache : Bool)
    (albumId photoId : String) (total : Nat) (dl : Nat → Option Bytes)
    (fname : Nat → String) (fs : FS)
    (hsfx : SuffixOK sfx) (htot : total ≤ 99999) (hnd : FSNodup fs)
    (hinit : ∀ n, strEndsWith n sfx = true →
      fsExists fs (photoDir albumId photoId ++ [n]) = true →
      ∃ i, i < total ∧ n = pageName sfx i)
    (hsucc : ∀ i, i < total → ∃ k, dl i = some (Bytes.raw k)) :
    (ensure_photo_images sfx cache albumId photoId total dl fname fs).result
      = some ((List.range total).map
          (fun i => photoDir albumId photoId ++ [pageName sfx i])) := by
  have hpe : ∀ i, strEndsWith (pageName sfx i) sfx = true :=
    fun i => strEndsWith_append (String.mk (pageStem i)) sfx
  have hmapmap : ∀ K : Nat, ((List.range K).map (pageName sfx)).map
      (fun n => photoDir albumId photoId ++ [n])
      = (List.range K).map (fun i => photoDir albumId photoId ++ [pageName sfx i]) := by
    intro K
    rw [List.map_map]
    rfl
  cases cache with
  | true =>
    unfold ensure_photo_images
    by_cases hshort : (true && decide (0 < total)
        && decide (total ≤ (if true = true
          then globNames fs (photoDir albumId photoId) sfx else []).length)) = true
    · rw [if_pos hshort]
      simp only [eq_self_iff_true, if_true] at hshort ⊢
      simp only [Bool.true_and, Bool.and_eq_true, decide_eq_true_eq] at hshort
      have hglob := globNames_full hnd htot
        (fun n hn => by
          obtain ⟨hex, hends⟩ := mem_globNames.mp hn
          exact hinit n hends hex)
        hshort.2
      rw [hglob, hmapmap]
    · rw [if_neg hshort]
      simp only [eq_self_iff_true, if_true]
      obtain ⟨hw1, hw2, hw3⟩ := wave_fold_spec sfx (photoDir albumId photoId) dl fname
        hsfx ((List.range total).filter
          (fun i => !(fsExists fs (photoDir albumId photoId ++ [pageName sfx i]))))
        ⟨fs, false, 0⟩
        (List.Nodup.filter _ (List.nodup_range total))
        (fun i hi => by
          have := List.mem_range.mp (List.mem_filter.mp hi).1
          omega)
      have hfail : (((List.range total).filter
          (fun i => !(fsExists fs (photoDir albumId photoId ++ [pageName sfx i])))).foldl
            (download_one sfx (photoDir albumId photoId) dl fname)
            ⟨fs, false, 0⟩).failed = false := by
        rw [hw2]
        simp only [Bool.false_or]
        rw [List.any_eq_false]
        intro i hi
        obtain ⟨k, hk⟩ := hsucc i (List.mem_range.mp (List.mem_filter.mp hi).1)
        rw [jobOk_raw sfx fname dl hk]
        simp
      rw [hfail]
      simp only [Bool.false_eq_true, if_false]
      have hglobfin := globNames_eq_pageNames
        (nodup_wave sfx (photoDir albumId photoId) dl fname _ ⟨fs, false, 0⟩ hnd) htot
        (fun n => by
          constructor
          · rintro ⟨hex, hends⟩
            unfold fsExists at hex
            rw [hw3] at hex
            rcases waveGet_cases sfx fname dl fs (photoDir albumId photoId)
                (photoDir albumId photoId ++ [n]) _ with h | h | ⟨i, hi, hq⟩
            · rw [h] at hex
              exact hinit n hends hex
            · rw [h] at hex
              simp at hex
            · refine ⟨i, List.mem_range.mp (List.mem_filter.mp hi).1,
                dirAppend_inj.mp hq⟩
          · rintro ⟨i, hi, rfl⟩
            refine ⟨?_, hpe i⟩
            rw [fsExists_eq_isSome, hw3]
            by_cases hmemL : i ∈ (List.range total).filter
                (fun i => !(fsExists fs (photoDir albumId photoId ++ [pageName sfx i])))
            · rw [waveGet_target sfx fname dl fs (photoDir albumId photoId) hsfx
                (by omega) _ (fun j hj => by
                  have := List.mem_range.mp (List.mem_filter.mp hj).1
                  omega) hmemL]
              obtain ⟨k, hk⟩ := hsucc i hi
              exact targetVal_isSome_raw sfx fname dl fs (photoDir albumId photoId) hk
            · have hex : fsExists fs (photoDir albumId photoId ++ [pageName sfx i])
                  = true := by
                by_contra hnex
                exact hmemL (List.mem_filter.mpr ⟨List.mem_range.mpr hi, by
                  cases hb : fsExists fs (photoDir albumId photoId ++ [pageName sfx i])
                  · rfl
                  · exact absurd hb hnex⟩)
              rw [waveGet_untouched sfx fname dl fs (photoDir albumId photoId) _ _
                (fun j hj => by
                  have hjtot := List.mem_range.mp (List.mem_filter.mp hj).1
                  have hij : i ≠ j := fun hc => hmemL (hc ▸ hj)
                  refine ⟨pagePath_ne sfx (photoDir albumId photoId) hij, ?_⟩
                  rintro ⟨-, horj, hc⟩
                  exact tmpPath_ne_pagePath sfx fname (photoDir albumId photoId) hsfx
                    (by omega) (by omega) horj hc.symm)]
              exact hex)
      rw [hglobfin, hmapmap]
  | false =>
    unfold ensure_photo_images
    rw [if_neg (by simp)]
    simp only [Bool.false_eq_true, if_false]
    obtain ⟨hw1, hw2, hw3⟩ := wave_fold_spec sfx (photoDir albumId photoId) dl fname
      hsfx (List.range total)
      ⟨(globNames fs (photoDir albumId photoId) sfx).foldl
        (fun a n => fsDel a (photoDir albumId photoId ++ [n])) fs, false, 0⟩
      (List.nodup_range total)
      (fun i hi => by
        have := List.mem_range.mp hi
        omega)
    have hfail : (((List.range total)).foldl
        (download_one sfx (photoDir albumId photoId) dl fname)
        ⟨(globNames fs (photoDir albumId photoId) sfx).foldl
          (fun a n => fsDel a (photoDir albumId photoId ++ [n])) fs,
          false, 0⟩).failed = false := by
      rw [hw2]
      simp only [Bool.false_or]
      rw [List.any_eq_false]
      intro i hi
      obtain ⟨k, hk⟩ := hsucc i (List.mem_range.mp hi)
      rw [jobOk_raw sfx fname dl hk]
      simp
    rw [hfail]
    simp only [Bool.false_eq_true, if_false]
    have hglobfin := globNames_eq_pageNames
      (nodup_wave sfx (photoDir albumId photoId) dl fname _ _
        (nodup_foldDel (photoDir albumId photoId) _ hnd)) htot
      (fun n => by
        constructor
        · rintro ⟨hex, hends⟩
          unfold fsExists at hex
          rw [hw3] at hex
          rcases waveGet_cases sfx fname dl _ (photoDir albumId photoId)
              (photoDir albumId photoId ++ [n]) _ with h | h | ⟨i, hi, hq⟩
          · rw [h, fsGet_clean_dir fs (photoDir albumId photoId) sfx n hends] at hex
            simp at hex
          · rw [h] at hex
            simp at hex
          · exact ⟨i, List.mem_range.mp hi, dirAppend_inj.mp hq⟩
        · rintro ⟨i, hi, rfl⟩
          refine ⟨?_, hpe i⟩
          unfold fsExists
          rw [hw3]
          rw [waveGet_target sfx fname dl _ (photoDir albumId photoId) hsfx
            (by omega) _ (fun j hj => by
              have := List.mem_range.mp hj
              omega) (List.mem_range.mpr hi)]
          obtain ⟨k, hk⟩ := hsucc i hi
          exact targetVal_isSome_raw sfx fname dl _ (photoDir albumId photoId) hk)
    rw [hglobfin, hmapmap]

theorem jobOk_none (sfx : String) (fname : Nat → String) (dl : Nat → Option Bytes)
    {i : Nat} (hdl : dl i = none) : jobOk sfx fname dl i = false := by
  unfold jobOk
  rw [hdl]

theorem targetVal_none (sfx : String) (fname : Nat → String) (dl : Nat → Option Bytes)
    (fs0 : FS) (dir : List String) {i : Nat} (hdl : dl i = none) :
    targetVal sfx fname dl fs0 dir i = fsGet fs0 (dir ++ [pageName sfx i]) := by
  unfold targetVal
  rw [hdl]

/-- C7: fetch-set completeness and ordering under success. If the photo
directory holds only canonical page files of the set and every download
job delivers decodable bytes, `ensure_photo_images` returns exactly
`total` paths, namely the canonical page paths in ascending numeric page
order; and consecutive page names are filename-ordered (zero-padded
fixed-width index), matching the sorted fresh directory listing the
result is derived from. -/
theorem c7_fetch_set_complete (sfx : String) (cache : Bool)
    (albumId photoId : String) (total : Nat) (dl : Nat → Option Bytes)
    (fname : Nat → String) (fs : FS)
    (hsfx : SuffixOK sfx) (htot : total ≤ 99999) (hnd : FSNodup fs)
    (hinit : ∀ n, strEndsWith n sfx = true →
      fsExists fs (photoDir albumId photoId ++ [n]) = true →
      ∃ i, i < total ∧ n = pageName sfx i)
    (hsucc : ∀ i, i < total → ∃ k, dl i = some (Bytes.raw k)) :
    (ensure_photo_images sfx cache albumId photoId total dl fname fs).result
      = some ((List.range total).map
          (fun i => photoDir albumId photoId ++ [pageName sfx i])) ∧
    (∀ l, (ensure_photo_images sfx cache albumId photoId total dl fname
        fs).result = some l → l.length = total) ∧
    List.Sorted strLe ((List.range total).map (pageName sfx)) := by
  have h := ensure_photo_images_complete sfx cache albumId photoId total dl fname fs
    hsfx htot hnd hinit hsucc
  refine ⟨h, ?_, sorted_pageNames sfx total htot⟩
  intro l hl
  rw [h] at hl
  cases hl
  rw [List.length_map, List.length_range]

theorem c7_witness :
    (ensure_photo_images ".jpg" true "3" "4" 2 (fun i => some (Bytes.raw i))
        (fun _ => "") []).result
      = some ((List.range 2).map
          (fun i => photoDir "3" "4" ++ [pageName ".jpg" i])) :=
  (c7_fetch_set_complete ".jpg" true "3" "4" 2 (fun i => some (Bytes.raw i))
    (fun _ => "") [] (by decide) (by decide) List.nodup_nil
    (fun n _ h => absurd h (by simp [fsExists, fsGet]))
    (fun i _ => ⟨i, rfl⟩)).1

/-- C1 counterexample: with three expected pages and page 2's download
failing, `ensure_photo_images` does not return the sorted set of files
present after the wave: the re-raised job exception fails the whole call
(result `none`), even though all three dispatched jobs still ran and the
two successful pages were committed to the store. -/
theorem c1_counterexample :
    (ensure_photo_images ".jpg" true "3" "4" 3
        (fun i => if i = 1 then none else some (Bytes.raw i))
        (fun _ => "") []).result = none ∧
    (ensure_photo_images ".jpg" true "3" "4" 3
        (fun i => if i = 1 then none else some (Bytes.raw i))
        (fun _ => "") []).downloads = 3 ∧
    fsExists (ensure_photo_images ".jpg" true "3" "4" 3
        (fun i => if i = 1 then none else some (Bytes.raw i))
        (fun _ => "") []).fs (photoDir "3" "4" ++ [pageName ".jpg" 0]) = true ∧
    fsExists (ensure_photo_images ".jpg" true "3" "4" 3
        (fun i => if i = 1 then none else some (Bytes.raw i))
        (fun _ => "") []).fs (photoDir "3" "4" ++ [pageName ".jpg" 2]) = true := by
  decide

/-- C1 (amended): partial-failure behaviour of the fetch wave. A failing
page job makes the overall call fail, because collecting the mapped
results re-raises the job's exception; but the orchestrator still waits
for every dispatched job before that, so all `total` downloads are
attempted, every successful page is committed to the canonical path, and
only the failed index remains missing. A subsequent call whose downloads
all succeed returns the full page set in numeric order and re-downloads
only the previously failed index. -/
theorem c1_amended (sfx albumId photoId : String) (total bad : Nat)
    (dl1 dl2 : Nat → Option Bytes) (fname : Nat → String)
    (hsfx : SuffixOK sfx) (htot : total ≤ 99999) (hbad : bad < total)
    (hdl1 : ∀ i, i < total → i ≠ bad → ∃ k, dl1 i = some (Bytes.raw k))
    (hbad1 : dl1 bad = none)
    (hdl2 : ∀ i, i < total → ∃ k, dl2 i = some (Bytes.raw k)) :
    (ensure_photo_images sfx true albumId photoId total dl1 fname []).result
      = none ∧
    (ensure_photo_images sfx true albumId photoId total dl1 fname []).downloads
      = total ∧
    (∀ i, i < total → i ≠ bad →
      fsExists (ensure_photo_images sfx true albumId photoId total dl1 fname []).fs
        (photoDir albumId photoId ++ [pageName sfx i]) = true) ∧
    fsExists (ensure_photo_images sfx true albumId photoId total dl1 fname []).fs
      (photoDir albumId photoId ++ [pageName sfx bad]) = false ∧
    (ensure_photo_images sfx true albumId photoId total dl2 fname
        (ensure_photo_images sfx true albumId photoId total dl1 fname []).fs).result
      = some ((List.range total).map
          (fun i => photoDir albumId photoId ++ [pageName sfx i])) ∧
    (ensure_photo_images sfx true albumId photoId total dl2 fname
        (ensure_photo_images sfx true albumId photoId total dl1 fname
          []).fs).downloads = 1 := by
  have hbound : ∀ i ∈ List.range total, i < 99999 := by
    intro i hi
    have := List.mem_range.mp hi
    omega
  obtain ⟨hw1, hw2, hw3⟩ := wave_fold_spec sfx (photoDir albumId photoId) dl1 fname
    hsfx (List.range total) ⟨[], false, 0⟩ (List.nodup_range total) hbound
  have hglob0 : globNames ([] : FS) (photoDir albumId photoId) sfx = [] := rfl
  have hcond : (true && decide (0 < total) && decide (total ≤ (if true = true
      then globNames ([] : FS) (photoDir albumId photoId) sfx else []).length))
      = false := by
    rw [hglob0]
    simp
    omega
  have hfilter0 : (List.range total).filter
      (fun i => !(fsExists ([] : FS) (photoDir albumId photoId ++ [pageName sfx i])))
      = List.range total := List.filter_eq_self.mpr (fun a _ => rfl)
  have hfs1 : (ensure_photo_images sfx true albumId photoId total dl1 fname []).fs
      = ((List.range total).foldl (download_one sfx (photoDir albumId photoId) dl1
          fname) ⟨[], false, 0⟩).fs := by
    unfold ensure_photo_images
    rw [if_neg (by rw [hcond]; simp)]
    simp only [eq_self_iff_true, if_true]
    rw [hfilter0]
  have hdown1 : (ensure_photo_images sfx true albumId photoId total dl1 fname
      []).downloads = total := by
    unfold ensure_photo_images
    rw [if_neg (by rw [hcond]; simp)]
    simp only [eq_self_iff_true, if_true]
    rw [hfilter0, hw1, List.length_range]
    simp
  have hfailed : ((List.range total).foldl (download_one sfx (photoDir albumId
      photoId) dl1 fname) ⟨[], false, 0⟩).failed = true := by
    rw [hw2]
    simp only [Bool.false_or]
    rw [List.any_eq_true]
    exact ⟨bad, List.mem_range.mpr hbad, by rw [jobOk_none sfx fname dl1 hbad1]; rfl⟩
  have hres1 : (ensure_photo_images sfx true albumId photoId total dl1 fname
      []).result = none := by
    unfold ensure_photo_images
    rw [if_neg (by rw [hcond]; simp)]
    simp only [eq_self_iff_true, if_true]
    rw [hfilter0, hfailed]
    simp
  have hget1 : ∀ q, fsGet (ensure_photo_images sfx true albumId photoId total dl1
      fname []).fs q
      = waveGet sfx fname dl1 [] (photoDir albumId photoId) q (List.range total) := by
    intro q
    rw [hfs1]
    exact hw3 q
  have hpresent : ∀ i, i < total → i ≠ bad →
      fsExists (ensure_photo_images sfx true albumId photoId total dl1 fname []).fs
        (photoDir albumId photoId ++ [pageName sfx i]) = true := by
    intro i hi hne
    rw [fsExists_eq_isSome, hget1]
    rw [waveGet_target sfx fname dl1 [] (photoDir albumId photoId) hsfx (by omega)
      (List.range total) hbound (List.mem_range.mpr hi)]
    obtain ⟨k, hk⟩ := hdl1 i hi hne
    exact targetVal_isSome_raw sfx fname dl1 [] (photoDir albumId photoId) hk
  have hmissing : fsExists (ensure_photo_images sfx true albumId photoId total dl1
      fname []).fs (photoDir albumId photoId ++ [pageName sfx bad]) = false := by
    rw [fsExists_eq_isSome, hget1]
    rw [waveGet_target sfx fname dl1 [] (photoDir albumId photoId) hsfx (by omega)
      (List.range total) hbound (List.mem_range.mpr hbad)]
    rw [targetVal_none sfx fname dl1 [] (photoDir albumId photoId) hbad1]
    rfl
  have hnd1 : FSNodup (ensure_photo_images sfx true albumId photoId total dl1 fname
      []).fs := by
    rw [hfs1]
    exact nodup_wave sfx (photoDir albumId photoId) dl1 fname (List.range total)
      ⟨[], false, 0⟩ List.nodup_nil
  have hinit2 : ∀ n, strEndsWith n sfx = true →
      fsExists (ensure_photo_images sfx true albumId photoId total dl1 fname []).fs
        (photoDir albumId photoId ++ [n]) = true →
      ∃ i, i < total ∧ n = pageName sfx i := by
    intro n hends hex
    rw [fsExists_eq_isSome, hget1] at hex
    rcases waveGet_cases sfx fname dl1 [] (photoDir albumId photoId)
        (photoDir albumId photoId ++ [n]) (List.range total) with h | h | ⟨i, hi, hq⟩
    · rw [h] at hex
      simp [fsGet] at hex
    · rw [h] at hex
      simp at hex
    · exact ⟨i, List.mem_range.mp hi, dirAppend_inj.mp hq⟩
  have hres2 := ensure_photo_images_complete sfx true albumId photoId total dl2
    fname (ensure_photo_images sfx true albumId photoId total dl1 fname []).fs
    hsfx htot hnd1 hinit2 hdl2
  have hsub2 : ∀ n ∈ globNames (ensure_photo_images sfx true albumId photoId total
        dl1 fname []).fs (photoDir albumId photoId) sfx,
      n ∈ ((List.range total).filter (fun i => !(i == bad))).map (pageName sfx) := by
    intro n hn
    obtain ⟨hex, hends⟩ := mem_globNames.mp hn
    obtain ⟨i, hi, rfl⟩ := hinit2 n hends hex
    have hne : i ≠ bad := by
      intro he
      rw [he] at hex
      rw [hmissing] at hex
      exact Bool.noConfusion hex
    exact List.mem_map.mpr ⟨i, List.mem_filter.mpr
      ⟨List.mem_range.mpr hi, by simp [hne]⟩, rfl⟩
  have hlen2 : (globNames (ensure_photo_images sfx true albumId photoId total dl1
      fname []).fs (photoDir albumId photoId) sfx).length < total := by
    have hsp := List.subperm_of_subset
      (nodup_globNames hnd1 (photoDir albumId photoId) sfx) hsub2
    have h1 := hsp.length_le
    have h2 : (((List.range total).filter (fun i => !(i == bad))).map
        (pageName sfx)).length < total := by
      rw [List.length_map]
      have h3 := (@List.length_filter_lt_length_iff_exists Nat
        (fun i => !(i == bad)) (List.range total)).mpr
        ⟨bad, List.mem_range.mpr hbad, by simp⟩
      rw [List.length_range] at h3
      exact h3
    omega
  have hfilter2 : (List.range total).filter
      (fun i => !(fsExists (ensure_photo_images sfx true albumId photoId total dl1
        fname []).fs (photoDir albumId photoId ++ [pageName sfx i])))
      = (List.range total).filter (fun i => i == bad) := by
    apply List.filter_congr
    intro i hi
    have hit := List.mem_range.mp hi
    by_cases he : i = bad
    · subst he
      rw [hmissing]
      simp
    · rw [hpresent i hit he]
      simp [he]
  have hlenfilter : ((List.range total).filter (fun i => i == bad)).length = 1 := by
    have h4 := List.count_eq_one_of_mem (List.nodup_range total)
      (List.mem_range.mpr hbad)
    rw [List.count, List.countP_eq_length_filter] at h4
    exact h4
  have hdown2gen : ∀ F : FS, FSNodup F →
      ((List.range total).filter (fun i => !(fsExists F (photoDir albumId photoId
        ++ [pageName sfx i]))) = (List.range total).filter (fun i => i == bad)) →
      ((globNames F (photoDir albumId photoId) sfx).length < total) →
      (ensure_photo_images sfx true albumId photoId total dl2 fname F).downloads
        = 1 := by
    intro F hndF hfilt hlenF
    obtain ⟨hw1b, hw2b, hw3b⟩ := wave_fold_spec sfx (photoDir albumId photoId) dl2
      fname hsfx ((List.range total).filter (fun i => i == bad)) ⟨F, false, 0⟩
      (List.Nodup.filter _ (List.nodup_range total))
      (fun i hi => hbound i (List.mem_filter.mp hi).1)
    unfold ensure_photo_images
    rw [if_neg (by
      simp only [eq_self_iff_true, if_true]
      have hnle : ¬ (total ≤ (globNames F (photoDir albumId photoId) sfx).length) :=
        by omega
      simp [hnle])]
    simp only [eq_self_iff_true, if_true]
    rw [hfilt, hw1b, hlenfilter]
  exact ⟨hres1, hdown1, hpresent, hmissing, hres2, hdown2gen _ hnd1 hfilter2 hlen2⟩

theorem c1_amended_witness :
    (ensure_photo_images ".jpg" true "3" "4" 2
        (fun i => if i = 0 then none else some (Bytes.raw i)) (fun _ => "")
        []).result = none ∧
    (ensure_photo_images ".jpg" true "3" "4" 2 (fun i => some (Bytes.raw i))
        (fun _ => "")
        (ensure_photo_images ".jpg" true "3" "4" 2
          (fun i => if i = 0 then none else some (Bytes.raw i)) (fun _ => "")
          []).fs).downloads = 1 := by
  have h := c1_amended ".jpg" "3" "4" 2 0
    (fun i => if i = 0 then none else some (Bytes.raw i))
    (fun i => some (Bytes.raw i)) (fun _ => "")
    (by decide) (by decide) (by decide)
    (fun i _ hne => ⟨i, if_neg hne⟩)
    rfl
    (fun i _ => ⟨i, rfl⟩)
  exact ⟨h.1, h.2.2.2.2.2⟩

end JmApi
